import Mathlib

/-!
Verification of the trace-scheduling core of the bril toolchain
(bril-ts/dataflow.ts together with the IR vocabulary of bril.ts).

The embedding mirrors the TypeScript source:
  a. the IR data model (identifiers, value/effect operations, constants,
     the guard-bearing trace instruction and the Group bundle);
  b. toGroup, the bundle materializer;
  c. dataflow, the dependence-graph builder (nodes are numbered by their
     position in the input trace; the maps written and read and the
     predecessor/successor adjacency are threaded as explicit state;
     JavaScript Set objects are modelled as insertion-ordered duplicate-free
     lists, so iteration order is preserved faithfully);
  d. PQueue.next together with nodeCompare;
  e. listSchedule, the list scheduler (the unbounded while loop is modelled
     with explicit fuel; the queue, scheduled, toUpdate sets and the bundle
     in progress are the loop state);
  f. assignDagPriority (recursion is modelled with fuel since the source
     diverges on cyclic graphs).
-/

namespace BrilSched

/-- Variable names in the IR (bril.Ident). -/
abbrev Ident := String

/-- Value types (bril.Type: int or bool). -/
inductive Ty where
  | int
  | bool
  deriving DecidableEq

/-- Literal values carried by constants (bril.Value). -/
inductive Value where
  | int (n : Int)
  | bool (b : Bool)
  deriving DecidableEq

/-- Opcodes of value-producing operations (bril.ValueOperation, field op). -/
inductive VOp where
  | add | mul | sub | div
  | id | nop
  | eq | lt | gt | ge | le | not | and | or
  deriving DecidableEq

/-- Opcodes of effect operations (bril.EffectOperation, field op). -/
inductive EOp where
  | br | jmp | print | ret
  deriving DecidableEq

/-- An effect operation: an opcode and its argument identifiers
(bril.EffectOperation). -/
structure EffectInstr where
  op : EOp
  args : List Ident
  deriving DecidableEq

/-- A value-producing micro-instruction: a constant or a value operation
(bril.Constant and bril.ValueOperation, the element type of Group.instrs). -/
inductive VInstr where
  | const (dest : Ident) (ty : Ty) (value : Value)
  | value (op : VOp) (args : List Ident) (dest : Ident) (ty : Ty)
  deriving DecidableEq

/-- A Group: precondition identifiers, the value-producing
micro-instructions issued together, and the shared fail label
(bril.Group as consumed and produced by dataflow.ts). -/
structure GroupData where
  conds : List Ident
  instrs : List VInstr
  failLabel : Ident
  deriving DecidableEq

/-- The instruction union over which dataflow.ts operates: constants,
value operations, effect operations, the guard-bearing trace instruction
(op "trace", carrying a nested effect operation and a failLabel, exactly
the fields toGroup reads), and an already-materialized Group. -/
inductive Instruction where
  | const (dest : Ident) (ty : Ty) (value : Value)
  | value (op : VOp) (args : List Ident) (dest : Ident) (ty : Ty)
  | effect (e : EffectInstr)
  | trace (effect : EffectInstr) (failLabel : Ident)
  | group (g : GroupData)
  deriving DecidableEq

instance : Inhabited Instruction := ⟨.effect ⟨.print, []⟩⟩

/-- The destination of an instruction, when it has one: mirrors the
JavaScript test "dest" in instr, which holds exactly for constants and
value operations. -/
def Instruction.dest? : Instruction → Option Ident
  | .const d _ _ => some d
  | .value _ _ d _ => some d
  | _ => none

/-- The argument list of an instruction: mirrors the JavaScript test
"args" in instr, which holds for value operations and effect operations;
constants, trace instructions and groups have no top-level args field,
so the args loop of dataflow.ts does not run for them. -/
def Instruction.argsOf : Instruction → List Ident
  | .value _ as _ _ => as
  | .effect e => e.args
  | _ => []

/-- Whether an instruction is an already-materialized Group: mirrors the
JavaScript test "conds" in instr used by toGroup. -/
def Instruction.isGroupI : Instruction → Bool
  | .group _ => true
  | _ => false

/-- The value-producing micro-instruction carried by an instruction with a
destination, if any (the narrowing performed by the branch
"else if (dest in instr) instrs.push(instr)" of toGroup). -/
def Instruction.toVInstr? : Instruction → Option VInstr
  | .const d ty v => some (.const d ty v)
  | .value op as d ty => some (.value op as d ty)
  | _ => none

/-- The precondition identifier contributed by a guard: for a trace
instruction whose nested effect is a conditional branch, its first
argument (instr.effect.args[0] in toGroup). -/
def Instruction.condOf : Instruction → Option Ident
  | .trace e _ => match e.op with
      | .br => some e.args.headI
      | _ => none
  | _ => none

/-- The fail label contributed by a trace instruction, if any. -/
def Instruction.failOf : Instruction → Option Ident
  | .trace _ fl => some fl
  | _ => none

/-- The loop body of toGroup, with the accumulated conds, instrs and
failLabel made explicit. Mirrors dataflow.ts lines 66-97: a nested Group
raises, a trace instruction contributes its branch condition and always
overwrites the fail label, and every destination-bearing instruction is
appended in encounter order; plain effect instructions are dropped. -/
def toGroupAux : List Instruction → List Ident → List VInstr → Ident →
    Except String GroupData
  | [], conds, instrs, failLabel => .ok ⟨conds, instrs, failLabel⟩
  | i :: rest, conds, instrs, failLabel =>
    match i with
    | .group _ => .error "Cannot nest groups"
    | .trace e fl =>
        (match e.op with
         | .br => toGroupAux rest (conds ++ [e.args.headI]) instrs fl
         | _ => toGroupAux rest conds instrs fl)
    | .const d ty v => toGroupAux rest conds (instrs ++ [.const d ty v]) failLabel
    | .value op as d ty => toGroupAux rest conds (instrs ++ [.value op as d ty]) failLabel
    | .effect _ => toGroupAux rest conds instrs failLabel

/-- toGroup of dataflow.ts: materialize a bundle into a Group, starting
from empty conds and instrs and the empty-string fail label. -/
def toGroup (l : List Instruction) : Except String GroupData :=
  toGroupAux l [] [] ""

/-- Characterization of a successful toGroup run: when the bundle holds no
nested Group, the result collects the branch conditions, the
destination-bearing micro-instructions in order, and the fail label of the
last trace instruction (the accumulator seeds are prepended / defaulted). -/
theorem toGroupAux_ok (l : List Instruction) :
    ∀ conds instrs failLabel, (∀ x ∈ l, x.isGroupI = false) →
    toGroupAux l conds instrs failLabel =
      .ok ⟨conds ++ l.filterMap Instruction.condOf,
           instrs ++ l.filterMap Instruction.toVInstr?,
           (l.filterMap Instruction.failOf).getLastD failLabel⟩ := by
  induction l with
  | nil => intro conds instrs failLabel _; simp [toGroupAux]
  | cons i rest ih =>
    intro conds instrs failLabel hng
    have hi : i.isGroupI = false := hng i (by simp)
    have hrest : ∀ x ∈ rest, x.isGroupI = false := fun x hx => hng x (by simp [hx])
    cases i with
    | group g => simp [Instruction.isGroupI] at hi
    | trace e fl =>
        cases hop : e.op with
        | br =>
            simp only [toGroupAux, hop, ih _ _ _ hrest, Instruction.condOf,
              Instruction.toVInstr?, Instruction.failOf, List.filterMap_cons,
              List.getLastD_cons, List.append_assoc, List.singleton_append]
        | jmp =>
            simp only [toGroupAux, hop, ih _ _ _ hrest, Instruction.condOf,
              Instruction.toVInstr?, Instruction.failOf, List.filterMap_cons,
              List.getLastD_cons]
        | print =>
            simp only [toGroupAux, hop, ih _ _ _ hrest, Instruction.condOf,
              Instruction.toVInstr?, Instruction.failOf, List.filterMap_cons,
              List.getLastD_cons]
        | ret =>
            simp only [toGroupAux, hop, ih _ _ _ hrest, Instruction.condOf,
              Instruction.toVInstr?, Instruction.failOf, List.filterMap_cons,
              List.getLastD_cons]
    | const d ty v =>
        simp only [toGroupAux, ih _ _ _ hrest, Instruction.condOf,
          Instruction.toVInstr?, Instruction.failOf, List.filterMap_cons,
          List.append_assoc, List.singleton_append]
    | value op as d ty =>
        simp only [toGroupAux, ih _ _ _ hrest, Instruction.condOf,
          Instruction.toVInstr?, Instruction.failOf, List.filterMap_cons,
          List.append_assoc, List.singleton_append]
    | effect e =>
        simp only [toGroupAux, ih _ _ _ hrest, Instruction.condOf,
          Instruction.toVInstr?, Instruction.failOf, List.filterMap_cons]

/-- toGroup on a bundle free of nested Groups. -/
theorem toGroup_ok (l : List Instruction) (h : ∀ x ∈ l, x.isGroupI = false) :
    toGroup l = .ok ⟨l.filterMap Instruction.condOf,
                     l.filterMap Instruction.toVInstr?,
                     (l.filterMap Instruction.failOf).getLastD ""⟩ := by
  simpa [toGroup] using toGroupAux_ok l [] [] "" h

/-- toGroupAux raises exactly when the remaining bundle holds a Group. -/
theorem toGroupAux_error_iff (l : List Instruction) :
    ∀ conds instrs failLabel,
    (toGroupAux l conds instrs failLabel = .error "Cannot nest groups" ↔
      ∃ x ∈ l, x.isGroupI = true) := by
  induction l with
  | nil => intro conds instrs failLabel; simp [toGroupAux]
  | cons i rest ih =>
    intro conds instrs failLabel
    cases i with
    | group g => simp [toGroupAux, Instruction.isGroupI]
    | trace e fl =>
        cases hop : e.op with
        | br => simp [toGroupAux, hop, ih, Instruction.isGroupI]
        | jmp => simp [toGroupAux, hop, ih, Instruction.isGroupI]
        | print => simp [toGroupAux, hop, ih, Instruction.isGroupI]
        | ret => simp [toGroupAux, hop, ih, Instruction.isGroupI]
    | const d ty v => simp [toGroupAux, ih, Instruction.isGroupI]
    | value op as d ty => simp [toGroupAux, ih, Instruction.isGroupI]
    | effect e => simp [toGroupAux, ih, Instruction.isGroupI]

/-- JavaScript Set.add on an insertion-ordered duplicate-free list: append
the element unless it is already present. -/
def addOnce (l : List Nat) (x : Nat) : List Nat :=
  if x ∈ l then l else l ++ [x]

theorem mem_addOnce {l : List Nat} {x y : Nat} :
    y ∈ addOnce l x ↔ y ∈ l ∨ y = x := by
  unfold addOnce
  split <;> rename_i h
  · constructor
    · exact fun hy => Or.inl hy
    · rintro (hy | rfl) <;> assumption
  · simp

theorem addOnce_nodup {l : List Nat} (h : l.Nodup) (x : Nat) :
    (addOnce l x).Nodup := by
  unfold addOnce
  split <;> rename_i hx
  · exact h
  · simpa [List.nodup_append] using ⟨h, hx⟩

theorem addOnce_sublist_mem {l : List Nat} {x y : Nat} (h : y ∈ l) :
    y ∈ addOnce l x := mem_addOnce.mpr (Or.inl h)

theorem mem_addOnce_self (l : List Nat) (x : Nat) : x ∈ addOnce l x :=
  mem_addOnce.mpr (Or.inr rfl)

theorem foldl_addOnce_mem {l acc : List Nat} {y : Nat} :
    y ∈ l.foldl addOnce acc ↔ y ∈ acc ∨ y ∈ l := by
  induction l generalizing acc with
  | nil => simp
  | cons x xs ih =>
      simp only [List.foldl_cons, ih, mem_addOnce, List.mem_cons]
      tauto

theorem foldl_addOnce_nodup {l acc : List Nat} (h : acc.Nodup) :
    (l.foldl addOnce acc).Nodup := by
  induction l generalizing acc with
  | nil => exact h
  | cons x xs ih => exact ih (addOnce_nodup h x)

/-- The subset helper of dataflow.ts (lines 45-53): every element of the
first set is a member of the second. -/
def subsetL (s1 s2 : List Nat) : Bool :=
  s1.all fun x => decide (x ∈ s2)

theorem subsetL_iff {s1 s2 : List Nat} :
    subsetL s1 s2 = true ↔ ∀ x ∈ s1, x ∈ s2 := by
  simp [subsetL]

/-- nodeCompare of dataflow.ts (lines 55-60), on the priority fields of the
two nodes. The JavaScript guard t1.priority and t2.priority is a
truthiness test, so it takes the first branch only when both priorities
are assigned and non-zero; otherwise the function returns whether the
first priority is assigned. -/
def nodeCompareP : Option Nat → Option Nat → Bool
  | some p, some q => if p ≠ 0 ∧ q ≠ 0 then decide (p < q) else true
  | some _, none => true
  | none, _ => false

/-- A graph node as seen by the priority queue: an identity tag and the
priority field, the only field nodeCompare reads. -/
structure PNode where
  pid : Nat
  priority : Option Nat
  deriving DecidableEq

/-- nodeCompare on nodes (reads only the priority fields). -/
def nodeCompare (t1 t2 : PNode) : Bool :=
  nodeCompareP t1.priority t2.priority

/-- The scan of PQueue.next (dataflow.ts lines 27-39): best starts
undefined, is set to the first element, and thereafter is replaced by the
current element whenever compare best item returns true. -/
def pqBest {α : Type} (cmp : α → α → Bool) : List α → Option α
  | [] => none
  | x :: xs => some (xs.foldl (fun best item => if cmp best item then item else best) x)

/-- PQueue.next: select the element the scan settles on and delete it from
the set. -/
def pqNext {α : Type} [BEq α] (cmp : α → α → Bool) (q : List α) :
    Option (α × List α) :=
  match pqBest cmp q with
  | none => none
  | some b => some (b, q.erase b)

theorem foldl_best_mem {α : Type} (cmp : α → α → Bool) :
    ∀ (xs : List α) (x : α),
      xs.foldl (fun best item => if cmp best item then item else best) x ∈ x :: xs := by
  intro xs
  induction xs with
  | nil => intro x; simp
  | cons y ys ih =>
      intro x
      simp only [List.foldl_cons]
      rcases List.mem_cons.mp (ih (if cmp x y then y else x)) with hm | hm
      · rw [hm]
        by_cases hc : cmp x y = true <;> simp [hc]
      · simp [hm]

theorem pqBest_mem {α : Type} (cmp : α → α → Bool) {q : List α} {b : α}
    (h : pqBest cmp q = some b) : b ∈ q := by
  cases q with
  | nil => simp [pqBest] at h
  | cons x xs =>
      simp only [pqBest, Option.some.injEq] at h
      rw [← h]
      exact foldl_best_mem cmp xs x

theorem pqBest_none_iff {α : Type} (cmp : α → α → Bool) {q : List α} :
    pqBest cmp q = none ↔ q = [] := by
  cases q <;> simp [pqBest]

theorem pqNext_none_iff {α : Type} [BEq α] (cmp : α → α → Bool) {q : List α} :
    pqNext cmp q = none ↔ q = [] := by
  unfold pqNext
  cases hb : pqBest cmp q with
  | none => simpa using (pqBest_none_iff cmp).mp hb
  | some b =>
      simp only []
      constructor
      · intro h; simp at h
      · intro h; subst h; simp [pqBest] at hb

theorem pqNext_some {α : Type} [BEq α] (cmp : α → α → Bool) {q q' : List α}
    {b : α} (h : pqNext cmp q = some (b, q')) :
    b ∈ q ∧ q' = q.erase b := by
  unfold pqNext at h
  cases hb : pqBest cmp q with
  | none => rw [hb] at h; simp at h
  | some c =>
      rw [hb] at h
      simp only [Option.some.injEq, Prod.mk.injEq] at h
      obtain ⟨rfl, rfl⟩ := h
      exact ⟨pqBest_mem cmp hb, rfl⟩

/-- The mutable state of one dataflow invocation (dataflow.ts lines
163-224): the most-recent-writer map, the pending-readers map, the
predecessor and successor adjacency of each instruction node (nodes are
numbered by trace position), and the successor registry of the start node. -/
structure DFState where
  written : Ident → Option Nat
  readers : Ident → List Nat
  preds : Nat → List Nat
  succs : Nat → List Nat
  startSuccs : List Nat

/-- Add a dependence edge: parent.succs.add(curr) together with
curr.preds.add(parent). -/
def addEdge (s : DFState) (p c : Nat) : DFState :=
  { s with
    succs := fun j => if j = p then addOnce (s.succs p) c else s.succs j,
    preds := fun j => if j = c then addOnce (s.preds c) p else s.preds j }

/-- addRead of dataflow.ts (lines 167-174): record node i as a pending
reader of identifier x. -/
def addRead (x : Ident) (i : Nat) (s : DFState) : DFState :=
  { s with
    readers := fun y => if y = x then addOnce (s.readers x) i else s.readers y }

/-- The destination block of dataflow.ts (lines 195-207): add an
anti-dependence edge from every pending reader of the destination to the
new node, then record the new node as the most recent writer. The
pending-reader set is not cleared. -/
def dfDest (i : Nat) (d : Ident) (s : DFState) : DFState :=
  let s1 := (s.readers d).foldl (fun acc p => addEdge acc p i) s
  { s1 with written := fun x => if x = d then some i else s1.written x }

/-- The argument block of dataflow.ts (lines 210-221): for each argument
in order, add a true-dependence edge from its recorded most recent writer
(if any), then record the new node as a pending reader of the argument. -/
def dfArgs (i : Nat) (args : List Ident) (s : DFState) : DFState :=
  args.foldl (fun acc a =>
    let acc1 := match acc.written a with
      | some p => addEdge acc p i
      | none => acc
    addRead a i acc1) s

/-- Processing of one trace instruction at position i: register the node
with the start node, run the destination block if the instruction has a
destination, then the argument block if it has arguments. -/
def dfStep (i : Nat) (instr : Instruction) (s : DFState) : DFState :=
  let s0 := { s with startSuccs := addOnce s.startSuccs i }
  let s1 := match instr.dest? with
    | some d => dfDest i d s0
    | none => s0
  dfArgs i instr.argsOf s1

/-- The scan of dataflow.ts over the trace, threading the node index. -/
def dfGo : Nat → List Instruction → DFState → DFState
  | _, [], s => s
  | i, instr :: rest, s => dfGo (i + 1) rest (dfStep i instr s)

/-- The initial dataflow state: empty maps and no nodes. -/
def dfInit : DFState :=
  { written := fun _ => none, readers := fun _ => [],
    preds := fun _ => [], succs := fun _ => [], startSuccs := [] }

/-- The instruction stored at node i of a trace (trace position i). -/
def instrAt (t : List Instruction) (i : Nat) : Instruction :=
  t.getD i default

/-- The dependence graph as consumed by the scheduler: node count, the
start node successor registry, the adjacency maps, the priority of each
node (undefined on a freshly built graph) and the instruction of each
node. -/
structure SchedGraph where
  n : Nat
  startSuccs : List Nat
  preds : Nat → List Nat
  succs : Nat → List Nat
  prio : Nat → Option Nat
  instrAtG : Nat → Instruction

/-- dataflow of dataflow.ts: scan the trace once and return the graph
rooted at the start node. Every node starts with undefined priority. -/
def dataflow (t : List Instruction) : SchedGraph :=
  let s := dfGo 0 t dfInit
  { n := t.length, startSuccs := s.startSuccs, preds := s.preds,
    succs := s.succs, prio := fun _ => none, instrAtG := instrAt t }

/-- The loop state of listSchedule (dataflow.ts lines 100-152): the ready
queue, the scheduled set, the deferred toUpdate set, the bundle being
filled and the finalized bundles so far. All sets are insertion-ordered
duplicate-free lists of node ids; the bundle in progress and the finalized
bundles hold node ids, whose instructions are looked up when the validity
predicate or toGroup is invoked (JavaScript object identity of nodes is
node-id identity here). -/
structure SState where
  queue : List Nat
  scheduled : List Nat
  toUpdate : List Nat
  currentGroup : List Nat
  schedIds : List (List Nat)

/-- One iteration of the while loop of listSchedule. The start node never
enters the queue (only instruction nodes are registered and only
instruction nodes are ever made successors), so the branch guarding
node.instr against "start" never fires and is not represented. On a pop,
the candidate is offered to valid against the current bundle: accepted
nodes join the bundle and the scheduled set and release any successor all
of whose predecessors are scheduled into toUpdate; rejected nodes go to
toUpdate. On an empty queue the bundle is materialized (propagating the
nesting error of toGroup), deferred nodes refill the queue, and the loop
stops when the refilled queue is empty. -/
def schedStep (G : SchedGraph) (valid : List Instruction → Instruction → Bool)
    (s : SState) : Except String (SState ⊕ List (List Nat)) :=
  match pqNext (fun i j => nodeCompareP (G.prio i) (G.prio j)) s.queue with
  | some (node, q') =>
      if valid (s.currentGroup.map G.instrAtG) (G.instrAtG node) then
        let scheduled' := addOnce s.scheduled node
        let toUpdate' := (G.succs node).foldl
          (fun acc c => if subsetL (G.preds c) scheduled' then addOnce acc c else acc)
          s.toUpdate
        .ok (.inl { queue := q', scheduled := scheduled', toUpdate := toUpdate',
                    currentGroup := s.currentGroup ++ [node],
                    schedIds := s.schedIds })
      else
        .ok (.inl { queue := q', scheduled := s.scheduled,
                    toUpdate := addOnce s.toUpdate node,
                    currentGroup := s.currentGroup, schedIds := s.schedIds })
  | none =>
      match toGroup (s.currentGroup.map G.instrAtG) with
      | .error e => .error e
      | .ok _ =>
          let q' := s.toUpdate.foldl addOnce s.queue
          if q'.isEmpty then .ok (.inr (s.schedIds ++ [s.currentGroup]))
          else .ok (.inl { queue := q', scheduled := s.scheduled, toUpdate := [],
                           currentGroup := [],
                           schedIds := s.schedIds ++ [s.currentGroup] })

/-- The while loop, with explicit fuel (the source loop is unbounded and
diverges for validity predicates that never accept). -/
def schedRun (G : SchedGraph) (valid : List Instruction → Instruction → Bool) :
    Nat → SState → Option (Except String (List (List Nat)))
  | 0, _ => none
  | fuel + 1, s =>
      match schedStep G valid s with
      | .error e => some (.error e)
      | .ok (.inr bs) => some (.ok bs)
      | .ok (.inl s') => schedRun G valid fuel s'

/-- The initial scheduler state: the queue is seeded with every registered
node that has no predecessors (dataflow.ts lines 107-113). -/
def initState (G : SchedGraph) : SState :=
  { queue := G.startSuccs.filter fun v => (G.preds v).isEmpty,
    scheduled := [], toUpdate := [], currentGroup := [], schedIds := [] }

/-- Materialization of every finalized bundle with toGroup, in order. -/
def materializeAll (G : SchedGraph) : List (List Nat) → Except String (List GroupData)
  | [] => .ok []
  | b :: bs =>
      match toGroup (b.map G.instrAtG) with
      | .error e => .error e
      | .ok g =>
          match materializeAll G bs with
          | .error e => .error e
          | .ok gs => .ok (g :: gs)

/-- listSchedule of dataflow.ts: run the loop and materialize each
finalized bundle with toGroup. The loop itself already materialized every
bundle when it finalized it (propagating any nesting error), so the final
pass re-runs the same successful toGroup calls and yields the list of
Groups that the source accumulates in its schedule variable. -/
def listSchedule (G : SchedGraph) (valid : List Instruction → Instruction → Bool)
    (fuel : Nat) : Option (Except String (List GroupData)) :=
  match schedRun G valid fuel (initState G) with
  | none => none
  | some (.error e) => some (.error e)
  | some (.ok bs) => some (materializeAll G bs)

theorem addEdge_preds (s : DFState) (p c i : Nat) :
    (addEdge s p c).preds i = if i = c then addOnce (s.preds c) p else s.preds i := rfl

theorem addEdge_succs (s : DFState) (p c j : Nat) :
    (addEdge s p c).succs j = if j = p then addOnce (s.succs p) c else s.succs j := rfl

theorem mem_addEdge_preds {s : DFState} {p c i j : Nat} :
    j ∈ (addEdge s p c).preds i ↔ j ∈ s.preds i ∨ (i = c ∧ j = p) := by
  rw [addEdge_preds]
  split <;> rename_i h
  · subst h; rw [mem_addOnce]; tauto
  · tauto

theorem mem_addEdge_succs {s : DFState} {p c i j : Nat} :
    i ∈ (addEdge s p c).succs j ↔ i ∈ s.succs j ∨ (j = p ∧ i = c) := by
  rw [addEdge_succs]
  split <;> rename_i h
  · subst h; rw [mem_addOnce]; tauto
  · tauto

/-- Symmetry of the adjacency lists: every predecessor edge is recorded as
the matching successor edge and conversely (dataflow.ts always adds both
directions together). -/
def DFSymm (s : DFState) : Prop :=
  ∀ i j, j ∈ s.preds i ↔ i ∈ s.succs j

theorem dfSymm_addEdge {s : DFState} (h : DFSymm s) (p c : Nat) :
    DFSymm (addEdge s p c) := by
  intro i j
  rw [mem_addEdge_preds, mem_addEdge_succs, h i j]
  tauto

theorem dfSymm_foldl_addEdge {c : Nat} :
    ∀ (l : List Nat) {s : DFState}, DFSymm s →
      DFSymm (l.foldl (fun acc p => addEdge acc p c) s) := by
  intro l
  induction l with
  | nil => intro s h; exact h
  | cons p ps ih => intro s h; exact ih (dfSymm_addEdge h p c)

theorem dfSymm_dfDest {s : DFState} (h : DFSymm s) (i : Nat) (d : Ident) :
    DFSymm (dfDest i d s) := by
  have h1 := dfSymm_foldl_addEdge (c := i) (s.readers d) h
  intro a b
  exact h1 a b

theorem dfSymm_addRead {s : DFState} (h : DFSymm s) (x : Ident) (i : Nat) :
    DFSymm (addRead x i s) := h

theorem dfSymm_dfArgs {s : DFState} (h : DFSymm s) (i : Nat) (args : List Ident) :
    DFSymm (dfArgs i args s) := by
  induction args generalizing s with
  | nil => exact h
  | cons a as ih =>
      show DFSymm (dfArgs i as _)
      apply ih
      cases hw : s.written a with
      | none => simpa [hw] using dfSymm_addRead h a i
      | some p =>
          have := dfSymm_addEdge h p i
          simpa [hw] using dfSymm_addRead this a i

theorem dfSymm_dfStep {s : DFState} (h : DFSymm s) (i : Nat) (c : Instruction) :
    DFSymm (dfStep i c s) := by
  unfold dfStep
  cases hd : c.dest? with
  | none =>
      simp only [hd]
      exact dfSymm_dfArgs (s := { s with startSuccs := addOnce s.startSuccs i }) h i c.argsOf
  | some d =>
      simp only [hd]
      exact dfSymm_dfArgs
        (dfSymm_dfDest (s := { s with startSuccs := addOnce s.startSuccs i }) h i d)
        i c.argsOf

theorem dfSymm_dfGo {s : DFState} (h : DFSymm s) :
    ∀ (rest : List Instruction) (k : Nat), DFSymm (dfGo k rest s) := by
  intro rest
  induction rest generalizing s h with
  | nil => intro k; exact h
  | cons c cs ih => intro k; exact ih (dfSymm_dfStep h k c) (k + 1)

theorem startSuccs_nodup_dfStep {s : DFState} (h : s.startSuccs.Nodup)
    (i : Nat) (c : Instruction) : (dfStep i c s).startSuccs.Nodup := by
  have h0 : (addOnce s.startSuccs i).Nodup := addOnce_nodup h i
  unfold dfStep
  have hdest : ∀ (d : Ident) (s' : DFState), (dfDest i d s').startSuccs = s'.startSuccs := by
    intro d s'
    show ((s'.readers d).foldl (fun acc p => addEdge acc p i) s').startSuccs = _
    generalize s'.readers d = l
    induction l generalizing s' with
    | nil => rfl
    | cons p ps ih => exact ih (addEdge s' p i)
  have hargs : ∀ (args : List Ident) (s' : DFState),
      (dfArgs i args s').startSuccs = s'.startSuccs := by
    intro args
    induction args with
    | nil => intro s'; rfl
    | cons a as ih =>
        intro s'
        show (dfArgs i as _).startSuccs = _
        rw [ih]
        cases hw : s'.written a <;> simp [hw, addRead, addEdge]
  cases hd : c.dest? with
  | none =>
      simp only [hd]
      rw [hargs]
      exact h0
  | some d =>
      simp only [hd]
      rw [hargs, hdest]
      exact h0

theorem startSuccs_nodup_dfGo {s : DFState} (h : s.startSuccs.Nodup) :
    ∀ (rest : List Instruction) (k : Nat), (dfGo k rest s).startSuccs.Nodup := by
  intro rest
  induction rest generalizing s h with
  | nil => intro k; exact h
  | cons c cs ih => intro k; exact ih (startSuccs_nodup_dfStep h k c) (k + 1)

/-- Well-formedness of a dataflow-built graph, as used by the scheduler
proofs: the adjacency is symmetric and the start registry has no
duplicates. -/
structure GraphWF (G : SchedGraph) : Prop where
  symm : ∀ i j, j ∈ G.preds i ↔ i ∈ G.succs j
  startN : G.startSuccs.Nodup

theorem dataflow_wf (t : List Instruction) : GraphWF (dataflow t) := by
  constructor
  · intro i j
    exact dfSymm_dfGo (fun _ _ => by simp [dfInit]) t 0 i j
  · exact startSuccs_nodup_dfGo (by simp [dfInit]) t 0

/-- The most recent writer of x among the nodes strictly before position
i: the largest j smaller than i whose instruction has destination x. -/
def lastWriterBefore (t : List Instruction) (i : Nat) (x : Ident) : Option Nat :=
  (List.range i).reverse.find? fun j => decide ((instrAt t j).dest? = some x)

/-- The writer the args loop of dataflow.ts observes for argument x of the
instruction at position i: the written map has already been updated by the
destination block of the same instruction, so an instruction that writes x
observes itself; otherwise it observes the most recent strictly earlier
writer. -/
def effWriter (t : List Instruction) (i : Nat) (x : Ident) : Option Nat :=
  if (instrAt t i).dest? = some x then some i else lastWriterBefore t i x

theorem lastWriterBefore_succ (t : List Instruction) (k : Nat) (x : Ident) :
    lastWriterBefore t (k + 1) x =
      if (instrAt t k).dest? = some x then some k else lastWriterBefore t k x := by
  unfold lastWriterBefore
  rw [List.range_succ, List.reverse_append]
  by_cases h : (instrAt t k).dest? = some x <;> simp [h]

theorem mem_addRead_readers {s : DFState} {x : Ident} {i : Nat} {y : Ident} {j : Nat} :
    j ∈ (addRead x i s).readers y ↔ j ∈ s.readers y ∨ (y = x ∧ j = i) := by
  show j ∈ (if y = x then addOnce (s.readers x) i else s.readers y) ↔ _
  split <;> rename_i h
  · subst h; rw [mem_addOnce]; tauto
  · tauto

theorem foldl_addEdge_preds (c : Nat) :
    ∀ (l : List Nat) (s : DFState) (i j : Nat),
      j ∈ (l.foldl (fun acc p => addEdge acc p c) s).preds i ↔
        j ∈ s.preds i ∨ (i = c ∧ j ∈ l) := by
  intro l
  induction l with
  | nil => intro s i j; simp
  | cons p ps ih =>
      intro s i j
      simp only [List.foldl_cons]
      rw [ih, mem_addEdge_preds]
      simp only [List.mem_cons]
      tauto

theorem foldl_addEdge_written (c : Nat) :
    ∀ (l : List Nat) (s : DFState),
      (l.foldl (fun acc p => addEdge acc p c) s).written = s.written := by
  intro l
  induction l with
  | nil => intro s; rfl
  | cons p ps ih => intro s; exact ih (addEdge s p c)

theorem foldl_addEdge_readers (c : Nat) :
    ∀ (l : List Nat) (s : DFState),
      (l.foldl (fun acc p => addEdge acc p c) s).readers = s.readers := by
  intro l
  induction l with
  | nil => intro s; rfl
  | cons p ps ih => intro s; exact ih (addEdge s p c)

theorem dfDest_written (i : Nat) (d : Ident) (s : DFState) (x : Ident) :
    (dfDest i d s).written x = if x = d then some i else s.written x := by
  show (if x = d then some i else
    ((s.readers d).foldl (fun acc p => addEdge acc p i) s).written x) = _
  rw [foldl_addEdge_written]

theorem dfDest_readers (i : Nat) (d : Ident) (s : DFState) :
    (dfDest i d s).readers = s.readers := by
  show ((s.readers d).foldl (fun acc p => addEdge acc p i) s).readers = _
  rw [foldl_addEdge_readers]

theorem mem_dfDest_preds {i : Nat} {d : Ident} {s : DFState} {a j : Nat} :
    j ∈ (dfDest i d s).preds a ↔ j ∈ s.preds a ∨ (a = i ∧ j ∈ s.readers d) := by
  show j ∈ ((s.readers d).foldl (fun acc p => addEdge acc p i) s).preds a ↔ _
  rw [foldl_addEdge_preds]

theorem dfArgs_cons (i : Nat) (a : Ident) (as : List Ident) (s : DFState) :
    dfArgs i (a :: as) s =
      dfArgs i as (addRead a i (match s.written a with
        | some p => addEdge s p i
        | none => s)) := rfl

theorem dfArgs_spec (i : Nat) :
    ∀ (as : List Ident) (s : DFState),
      (dfArgs i as s).written = s.written ∧
      (∀ x j, j ∈ (dfArgs i as s).readers x ↔
        j ∈ s.readers x ∨ (x ∈ as ∧ j = i)) ∧
      (∀ a j, j ∈ (dfArgs i as s).preds a ↔
        j ∈ s.preds a ∨ (a = i ∧ ∃ x ∈ as, s.written x = some j)) := by
  intro as
  induction as with
  | nil =>
      intro s
      refine ⟨rfl, ?_, ?_⟩ <;> intro a j <;> simp [dfArgs]
  | cons a as ih =>
      intro s
      rw [dfArgs_cons]
      cases hw : s.written a with
      | none =>
          obtain ⟨hW, hR, hP⟩ := ih (addRead a i s)
          have e1 : (addRead a i s).written = s.written := rfl
          have e2 : (addRead a i s).preds = s.preds := rfl
          refine ⟨by rw [hW, e1], ?_, ?_⟩
          · intro x j
            rw [hR, mem_addRead_readers]
            simp only [List.mem_cons]
            tauto
          · intro b j
            rw [hP]
            simp only [e1, e2]
            constructor
            · rintro (h1 | ⟨rfl, x, hx, hj⟩)
              · exact Or.inl h1
              · exact Or.inr ⟨rfl, x, List.mem_cons_of_mem a hx, hj⟩
            · rintro (h1 | ⟨rfl, x, hx, hj⟩)
              · exact Or.inl h1
              · rcases List.mem_cons.mp hx with rfl | hx'
                · rw [hw] at hj; exact absurd hj (by simp)
                · exact Or.inr ⟨rfl, x, hx', hj⟩
      | some p =>
          obtain ⟨hW, hR, hP⟩ := ih (addRead a i (addEdge s p i))
          have e1 : (addRead a i (addEdge s p i)).written = s.written := rfl
          have e2 : (addRead a i (addEdge s p i)).preds = (addEdge s p i).preds := rfl
          refine ⟨by rw [hW, e1], ?_, ?_⟩
          · intro x j
            rw [hR, mem_addRead_readers]
            simp only [List.mem_cons]
            tauto
          · intro b j
            rw [hP]
            simp only [e1, e2, mem_addEdge_preds]
            constructor
            · rintro ((h1 | ⟨rfl, rfl⟩) | ⟨rfl, x, hx, hj⟩)
              · exact Or.inl h1
              · exact Or.inr ⟨rfl, a, List.mem_cons_self a as, hw⟩
              · exact Or.inr ⟨rfl, x, List.mem_cons_of_mem a hx, hj⟩
            · rintro (h1 | ⟨rfl, x, hx, hj⟩)
              · exact Or.inl (Or.inl h1)
              · rcases List.mem_cons.mp hx with rfl | hx'
                · rw [hw] at hj
                  exact Or.inl (Or.inr ⟨rfl, (Option.some.inj hj).symm⟩)
                · exact Or.inr ⟨rfl, x, hx', hj⟩

/-- Exact membership characterization of the state after the first k
instructions of the trace have been scanned: the written map records the
most recent writer, the readers map records every reader so far (it is
never cleared), and node i has predecessor j exactly for the
anti-dependence edges from earlier readers of the destination of i and
the true-dependence edges from the writer the args loop observes. -/
structure DFChar (t : List Instruction) (k : Nat) (s : DFState) : Prop where
  writ : ∀ x, s.written x = lastWriterBefore t k x
  rdrs : ∀ x j, j ∈ s.readers x ↔ j < k ∧ x ∈ (instrAt t j).argsOf
  prds : ∀ i j, j ∈ s.preds i ↔ i < k ∧
    ((∃ d, (instrAt t i).dest? = some d ∧ j < i ∧ d ∈ (instrAt t j).argsOf) ∨
     (∃ a ∈ (instrAt t i).argsOf, effWriter t i a = some j))

theorem dfChar_dfStep {t : List Instruction} {k : Nat} {s : DFState}
    (h : DFChar t k s) : DFChar t (k + 1) (dfStep k (instrAt t k) s) := by
  unfold dfStep
  cases hd : (instrAt t k).dest? with
  | some d =>
      simp only [hd]
      obtain ⟨hW, hR, hP⟩ := dfArgs_spec k (instrAt t k).argsOf
        (dfDest k d { s with startSuccs := addOnce s.startSuccs k })
      have e1 : ∀ x, (dfDest k d
            { s with startSuccs := addOnce s.startSuccs k }).written x
          = if x = d then some k else s.written x :=
        fun x => dfDest_written k d _ x
      have e2 : (dfDest k d
            { s with startSuccs := addOnce s.startSuccs k }).readers = s.readers :=
        dfDest_readers k d _
      have e3 : ∀ a j, (j ∈ (dfDest k d
            { s with startSuccs := addOnce s.startSuccs k }).preds a
          ↔ j ∈ s.preds a ∨ (a = k ∧ j ∈ s.readers d)) :=
        fun a j => mem_dfDest_preds
      constructor
      · intro x
        rw [hW, e1, lastWriterBefore_succ, hd, h.writ x]
        by_cases hx : x = d
        · subst hx; simp
        · have hne : ¬ (some d = some x) := by simpa [eq_comm] using hx
          rw [if_neg hx, if_neg hne]
      · intro x j
        rw [hR, e2, h.rdrs]
        constructor
        · rintro (⟨hj, hx⟩ | ⟨hx, rfl⟩)
          · exact ⟨Nat.lt_succ_of_lt hj, hx⟩
          · exact ⟨Nat.lt_succ_self _, hx⟩
        · rintro ⟨hj, hx⟩
          rcases Nat.lt_succ_iff_lt_or_eq.mp hj with hj' | hj'
          · exact Or.inl ⟨hj', hx⟩
          · subst hj'; exact Or.inr ⟨hx, rfl⟩
      · intro a j
        rw [hP, e3]
        simp only [e1]
        rcases Nat.lt_trichotomy a k with hak | hak | hak
        · rw [h.prds]
          constructor
          · rintro ((⟨_, hX⟩ | ⟨hak2, _⟩) | ⟨hak2, _⟩)
            · exact ⟨Nat.lt_succ_of_lt hak, hX⟩
            · omega
            · omega
          · rintro ⟨_, hX⟩
            exact Or.inl (Or.inl ⟨hak, hX⟩)
        · subst hak
          constructor
          · rintro ((hpre | ⟨_, hrd⟩) | ⟨_, x, hx, hwx⟩)
            · rw [h.prds] at hpre; omega
            · have hrd' := (h.rdrs d j).mp hrd
              exact ⟨Nat.lt_succ_self a, Or.inl ⟨d, hd, hrd'.1, hrd'.2⟩⟩
            · refine ⟨Nat.lt_succ_self a, Or.inr ⟨x, hx, ?_⟩⟩
              unfold effWriter
              rw [hd]
              by_cases hxd : x = d
              · subst hxd
                rw [if_pos rfl] at hwx
                rw [if_pos rfl]
                exact hwx
              · have hne : ¬ (some d = some x) := by simpa [eq_comm] using hxd
                rw [if_neg hne]
                rw [if_neg hxd] at hwx
                rw [h.writ x] at hwx
                exact hwx
          · rintro ⟨_, (⟨d', hd', hj, hrd⟩ | ⟨x, hx, hw⟩)⟩
            · rw [hd] at hd'
              obtain rfl : d = d' := Option.some.inj hd'
              exact Or.inl (Or.inr ⟨rfl, (h.rdrs d j).mpr ⟨hj, hrd⟩⟩)
            · refine Or.inr ⟨rfl, x, hx, ?_⟩
              unfold effWriter at hw
              rw [hd] at hw
              by_cases hxd : x = d
              · subst hxd
                rw [if_pos rfl] at hw
                rw [if_pos rfl]
                exact hw
              · have hne : ¬ (some d = some x) := by simpa [eq_comm] using hxd
                rw [if_neg hne] at hw
                rw [if_neg hxd, h.writ x]
                exact hw
        · constructor
          · rintro ((hpre | ⟨hak2, _⟩) | ⟨hak2, _⟩)
            · rw [h.prds] at hpre; omega
            · omega
            · omega
          · rintro ⟨hlt, _⟩; omega
  | none =>
      simp only [hd]
      obtain ⟨hW, hR, hP⟩ := dfArgs_spec k (instrAt t k).argsOf
        { s with startSuccs := addOnce s.startSuccs k }
      have e1 : ({ s with startSuccs := addOnce s.startSuccs k } : DFState).written
          = s.written := rfl
      have e2 : ({ s with startSuccs := addOnce s.startSuccs k } : DFState).readers
          = s.readers := rfl
      have e3 : ({ s with startSuccs := addOnce s.startSuccs k } : DFState).preds
          = s.preds := rfl
      constructor
      · intro x
        rw [hW, e1, lastWriterBefore_succ, hd, h.writ x]
        have hne : ¬ ((none : Option Ident) = some x) := by simp
        rw [if_neg hne]
      · intro x j
        rw [hR, e2, h.rdrs]
        constructor
        · rintro (⟨hj, hx⟩ | ⟨hx, rfl⟩)
          · exact ⟨Nat.lt_succ_of_lt hj, hx⟩
          · exact ⟨Nat.lt_succ_self _, hx⟩
        · rintro ⟨hj, hx⟩
          rcases Nat.lt_succ_iff_lt_or_eq.mp hj with hj' | hj'
          · exact Or.inl ⟨hj', hx⟩
          · subst hj'; exact Or.inr ⟨hx, rfl⟩
      · intro a j
        rw [hP]
        simp only [e1, e3]
        rcases Nat.lt_trichotomy a k with hak | hak | hak
        · rw [h.prds]
          constructor
          · rintro (⟨_, hX⟩ | ⟨hak2, _⟩)
            · exact ⟨Nat.lt_succ_of_lt hak, hX⟩
            · omega
          · rintro ⟨_, hX⟩
            exact Or.inl ⟨hak, hX⟩
        · subst hak
          constructor
          · rintro (hpre | ⟨_, x, hx, hwx⟩)
            · rw [h.prds] at hpre; omega
            · refine ⟨Nat.lt_succ_self a, Or.inr ⟨x, hx, ?_⟩⟩
              unfold effWriter
              rw [hd]
              have hne : ¬ ((none : Option Ident) = some x) := by simp
              rw [if_neg hne, ← h.writ x]
              exact hwx
          · rintro ⟨_, (⟨d', hd', _, _⟩ | ⟨x, hx, hw⟩)⟩
            · rw [hd] at hd'; exact absurd hd' (by simp)
            · refine Or.inr ⟨rfl, x, hx, ?_⟩
              unfold effWriter at hw
              rw [hd] at hw
              have hne : ¬ ((none : Option Ident) = some x) := by simp
              rw [if_neg hne] at hw
              rw [h.writ x]
              exact hw
        · constructor
          · rintro (hpre | ⟨hak2, _⟩)
            · rw [h.prds] at hpre; omega
            · omega
          · rintro ⟨hlt, _⟩; omega

theorem drop_eq_cons_getD {t : List Instruction} :
    ∀ {k : Nat} {c : Instruction} {rest : List Instruction},
      t.drop k = c :: rest → instrAt t k = c ∧ t.drop (k + 1) = rest := by
  induction t with
  | nil => intro k c rest h; simp at h
  | cons a t' ih =>
      intro k c rest h
      cases k with
      | zero =>
          simp only [List.drop_zero] at h
          cases h
          exact ⟨rfl, by simp⟩
      | succ k' =>
          have h' : t'.drop k' = c :: rest := h
          obtain ⟨h1, h2⟩ := ih h'
          exact ⟨h1, h2⟩

theorem dfChar_dfGo {t : List Instruction} :
    ∀ (rest : List Instruction) (k : Nat) (s : DFState),
      t.drop k = rest → k ≤ t.length → DFChar t k s →
      DFChar t t.length (dfGo k rest s) := by
  intro rest
  induction rest with
  | nil =>
      intro k s hdrop hk h
      have hlen : t.length - k = 0 := by
        have := congrArg List.length hdrop
        simpa using this
      have : k = t.length := by omega
      subst this
      exact h
  | cons c cs ih =>
      intro k s hdrop hk h
      obtain ⟨hat, hdrop'⟩ := drop_eq_cons_getD hdrop
      have hklt : k < t.length := by
        by_contra hge
        rw [List.drop_eq_nil_of_le (by omega)] at hdrop
        simp at hdrop
      show DFChar t t.length (dfGo (k + 1) cs (dfStep k c s))
      exact ih (k + 1) (dfStep k c s) hdrop' (by omega)
        (by rw [← hat]; exact dfChar_dfStep h)

theorem dfChar_init (t : List Instruction) : DFChar t 0 dfInit := by
  constructor
  · intro x; simp [dfInit, lastWriterBefore]
  · intro x j; simp [dfInit]
  · intro i j; simp [dfInit]

/-- Final membership characterization of the predecessor lists built by
dataflow: node i has predecessor j exactly when i is a trace position and
either j is an earlier reader of the destination of i (anti dependence,
readers are never cleared) or j is the writer the args loop observes for
some argument of i (true dependence; an instruction that writes one of its
own arguments observes itself). -/
theorem dataflow_preds_iff (t : List Instruction) (i j : Nat) :
    j ∈ (dataflow t).preds i ↔ i < t.length ∧
      ((∃ d, (instrAt t i).dest? = some d ∧ j < i ∧ d ∈ (instrAt t j).argsOf) ∨
       (∃ a ∈ (instrAt t i).argsOf, effWriter t i a = some j)) := by
  have h := dfChar_dfGo t 0 dfInit rfl (Nat.zero_le _) (dfChar_init t)
  exact h.prds i j

theorem mem_schedFold {G : SchedGraph} {sch : List Nat} :
    ∀ (l : List Nat) (acc : List Nat) (x : Nat),
      (x ∈ l.foldl
        (fun acc c => if subsetL (G.preds c) sch then addOnce acc c else acc) acc ↔
        x ∈ acc ∨ (x ∈ l ∧ subsetL (G.preds x) sch = true)) := by
  intro l
  induction l with
  | nil => intro acc x; simp
  | cons c cs ih =>
      intro acc x
      simp only [List.foldl_cons]
      by_cases hc : subsetL (G.preds c) sch = true
      · rw [if_pos hc, ih, mem_addOnce]
        constructor
        · rintro ((h | rfl) | ⟨h1, h2⟩)
          · exact Or.inl h
          · exact Or.inr ⟨List.mem_cons_self _ _, hc⟩
          · exact Or.inr ⟨List.mem_cons_of_mem _ h1, h2⟩
        · rintro (h | ⟨h1, h2⟩)
          · exact Or.inl (Or.inl h)
          · rcases List.mem_cons.mp h1 with rfl | h1'
            · exact Or.inl (Or.inr rfl)
            · exact Or.inr ⟨h1', h2⟩
      · rw [if_neg hc, ih]
        constructor
        · rintro (h | ⟨h1, h2⟩)
          · exact Or.inl h
          · exact Or.inr ⟨List.mem_cons_of_mem _ h1, h2⟩
        · rintro (h | ⟨h1, h2⟩)
          · exact Or.inl h
          · rcases List.mem_cons.mp h1 with rfl | h1'
            · exact absurd h2 hc
            · exact Or.inr ⟨h1', h2⟩

theorem nodup_schedFold {G : SchedGraph} {sch : List Nat} :
    ∀ (l : List Nat) {acc : List Nat}, acc.Nodup →
      (l.foldl
        (fun acc c => if subsetL (G.preds c) sch then addOnce acc c else acc) acc).Nodup := by
  intro l
  induction l with
  | nil => intro acc h; exact h
  | cons c cs ih =>
      intro acc h
      simp only [List.foldl_cons]
      by_cases hc : subsetL (G.preds c) sch = true
      · rw [if_pos hc]; exact ih (addOnce_nodup h c)
      · rw [if_neg hc]; exact ih h

theorem getD_append_lt {α : Type} (l l' : List α) (d : α) :
    ∀ {j : Nat}, j < l.length → (l ++ l').getD j d = l.getD j d := by
  induction l with
  | nil => intro j h; simp at h
  | cons a as ih =>
      intro j h
      cases j with
      | zero => rfl
      | succ j' =>
          show (as ++ l').getD j' d = as.getD j' d
          exact ih (by simpa using h)

theorem getD_append_len {α : Type} (l : List α) (x d : α) :
    (l ++ [x]).getD l.length d = x := by
  induction l with
  | nil => rfl
  | cons a as ih => exact ih

theorem mem_getD_mem_join {α : Type} :
    ∀ (bs : List (List α)) (jdx : Nat) (b : α), b ∈ bs.getD jdx [] → b ∈ bs.flatten := by
  intro bs
  induction bs with
  | nil => intro jdx b h; simp at h
  | cons x bs' ih =>
      intro jdx b h
      cases jdx with
      | zero =>
          simp only [List.getD_cons_zero] at h
          simp [List.flatten, List.mem_append, h]
      | succ j' =>
          simp only [List.getD_cons_succ] at h
          simp [List.flatten, List.mem_append]
          exact Or.inr (by simpa [List.mem_flatten] using List.mem_flatten.mp (ih j' b h))

theorem mem_take_join_index {α : Type} :
    ∀ (bs : List (List α)) (jdx : Nat) (a : α), a ∈ (bs.take jdx).flatten →
      ∃ i, i < jdx ∧ a ∈ bs.getD i [] := by
  intro bs
  induction bs with
  | nil => intro jdx a h; simp at h
  | cons x bs' ih =>
      intro jdx a h
      cases jdx with
      | zero => simp at h
      | succ j' =>
          simp only [List.take_succ_cons, List.flatten_cons, List.mem_append] at h
          rcases h with h | h
          · exact ⟨0, Nat.succ_pos _, h⟩
          · obtain ⟨i, hi, hmem⟩ := ih j' a h
            exact ⟨i + 1, Nat.succ_lt_succ hi, hmem⟩

theorem join_nodup_unique_index {α : Type} :
    ∀ (bs : List (List α)), bs.flatten.Nodup → ∀ {i i' : Nat} {a : α},
      a ∈ bs.getD i [] → a ∈ bs.getD i' [] → i = i' := by
  intro bs
  induction bs with
  | nil => intro _ i i' a h; simp at h
  | cons x bs' ih =>
      intro hN i i' a h1 h2
      rw [List.flatten_cons, List.nodup_append] at hN
      obtain ⟨hx, hbs, hdisj⟩ := hN
      cases i with
      | zero =>
          cases i' with
          | zero => rfl
          | succ j' =>
              simp only [List.getD_cons_zero] at h1
              simp only [List.getD_cons_succ] at h2
              exact absurd (mem_getD_mem_join bs' j' a h2) (hdisj h1)
      | succ j =>
          cases i' with
          | zero =>
              simp only [List.getD_cons_succ] at h1
              simp only [List.getD_cons_zero] at h2
              exact absurd (mem_getD_mem_join bs' j a h1) (hdisj h2)
          | succ j' =>
              simp only [List.getD_cons_succ] at h1 h2
              exact congrArg Nat.succ (ih hbs h1 h2)

/-- The loop invariant of listSchedule: the queue, the deferred set and
the scheduled set are duplicate-free and mutually disjoint, every tracked
node is ready (all predecessors scheduled), the scheduled set is closed
under predecessors, the finalized bundles together with the bundle in
progress partition the scheduled set, queue members have all their
predecessors in already-finalized bundles, and every bundle member has all
its predecessors in strictly earlier bundles. -/
structure SchedInv (G : SchedGraph) (s : SState) : Prop where
  qN : s.queue.Nodup
  tN : s.toUpdate.Nodup
  sN : s.scheduled.Nodup
  qs : ∀ v ∈ s.queue, v ∉ s.scheduled
  ts : ∀ v ∈ s.toUpdate, v ∉ s.scheduled
  qt : ∀ v ∈ s.queue, v ∉ s.toUpdate
  ready : ∀ v, (v ∈ s.queue ∨ v ∈ s.toUpdate) → ∀ p ∈ G.preds v, p ∈ s.scheduled
  closed : ∀ v ∈ s.scheduled, ∀ p ∈ G.preds v, p ∈ s.scheduled
  part : (s.schedIds.flatten ++ s.currentGroup).Perm s.scheduled
  qfin : ∀ v ∈ s.queue, ∀ p ∈ G.preds v, p ∈ s.schedIds.flatten
  layered : ∀ jdx b, b ∈ s.schedIds.getD jdx [] → ∀ p ∈ G.preds b,
      p ∈ (s.schedIds.take jdx).flatten
  curLayered : ∀ b ∈ s.currentGroup, ∀ p ∈ G.preds b, p ∈ s.schedIds.flatten

theorem schedInv_init (G : SchedGraph) (HW : GraphWF G) :
    SchedInv G (initState G) := by
  have hq : ∀ v ∈ (initState G).queue, (G.preds v).isEmpty = true := by
    intro v hv
    exact (List.mem_filter.mp hv).2
  constructor
  · exact HW.startN.filter _
  · exact List.nodup_nil
  · exact List.nodup_nil
  · intro v _ hv; simp [initState] at hv
  · intro v hv; simp [initState] at hv
  · intro v _ hv; simp [initState] at hv
  · intro v hv p hp
    rcases hv with hv | hv
    · have := hq v hv
      rw [List.isEmpty_iff] at this
      rw [this] at hp
      simp at hp
    · simp [initState] at hv
  · intro v hv; simp [initState] at hv
  · simp [initState]
  · intro v hv p hp
    have := hq v hv
    rw [List.isEmpty_iff] at this
    rw [this] at hp
    simp at hp
  · intro jdx b hb; simp [initState] at hb
  · intro b hb; simp [initState] at hb

theorem schedStep_inv_inl {G : SchedGraph} (HW : GraphWF G)
    {valid : List Instruction → Instruction → Bool} {s s' : SState}
    (h : SchedInv G s) (hstep : schedStep G valid s = .ok (.inl s')) :
    SchedInv G s' := by
  cases hq : pqNext (fun i j => nodeCompareP (G.prio i) (G.prio j)) s.queue with
  | some nq =>
      obtain ⟨node, q'⟩ := nq
      obtain ⟨hnode, hq'e⟩ :=
        pqNext_some (fun i j => nodeCompareP (G.prio i) (G.prio j)) hq
      have hnotsch : node ∉ s.scheduled := h.qs node hnode
      have hnotT : node ∉ s.toUpdate := h.qt node hnode
      have hq'mem : ∀ v ∈ q', v ≠ node ∧ v ∈ s.queue := by
        intro v hv
        rw [hq'e] at hv
        exact (List.Nodup.mem_erase_iff h.qN).mp hv
      by_cases hv : valid (s.currentGroup.map G.instrAtG) (G.instrAtG node) = true
      · simp only [schedStep, hq, if_pos hv, Except.ok.injEq, Sum.inl.injEq] at hstep
        subst hstep
        constructor
        · rw [hq'e]; exact h.qN.erase node
        · exact nodup_schedFold _ h.tN
        · exact addOnce_nodup h.sN node
        · intro v hv' hmem
          obtain ⟨hvne, hvq⟩ := hq'mem v hv'
          rcases mem_addOnce.mp hmem with hm | hm
          · exact h.qs v hvq hm
          · exact hvne hm
        · intro v hv' hmem
          rcases (mem_schedFold _ _ _).mp hv' with hvT | ⟨hsucc, _⟩
          · rcases mem_addOnce.mp hmem with hm | hm
            · exact h.ts v hvT hm
            · rw [hm] at hvT; exact hnotT hvT
          · have hpred : node ∈ G.preds v := (HW.symm v node).mpr hsucc
            rcases mem_addOnce.mp hmem with hm | hm
            · exact hnotsch (h.closed v hm node hpred)
            · rw [hm] at hpred
              exact hnotsch (h.ready node (Or.inl hnode) node hpred)
        · intro v hv' hvT'
          obtain ⟨hvne, hvq⟩ := hq'mem v hv'
          rcases (mem_schedFold _ _ _).mp hvT' with hvT | ⟨hsucc, _⟩
          · exact h.qt v hvq hvT
          · have hpred : node ∈ G.preds v := (HW.symm v node).mpr hsucc
            exact hnotsch (h.ready v (Or.inl hvq) node hpred)
        · intro v hv' p hp
          rcases hv' with hv' | hv'
          · exact addOnce_sublist_mem
              (h.ready v (Or.inl (hq'mem v hv').2) p hp)
          · rcases (mem_schedFold _ _ _).mp hv' with hvT | ⟨_, hsub⟩
            · exact addOnce_sublist_mem (h.ready v (Or.inr hvT) p hp)
            · exact subsetL_iff.mp hsub p hp
        · intro v hv' p hp
          rcases mem_addOnce.mp hv' with hm | hm
          · exact addOnce_sublist_mem (h.closed v hm p hp)
          · rw [hm] at hp
            exact addOnce_sublist_mem (h.ready node (Or.inl hnode) p hp)
        · show (s.schedIds.flatten ++ (s.currentGroup ++ [node])).Perm
            (addOnce s.scheduled node)
          have he : addOnce s.scheduled node = s.scheduled ++ [node] := by
            unfold addOnce
            rw [if_neg hnotsch]
          rw [he, ← List.append_assoc]
          exact h.part.append_right [node]
        · intro v hv' p hp
          exact h.qfin v (hq'mem v hv').2 p hp
        · exact h.layered
        · intro b hb p hp
          rcases List.mem_append.mp hb with hb' | hb'
          · exact h.curLayered b hb' p hp
          · rw [List.mem_singleton.mp hb'] at hp
            exact h.qfin node hnode p hp
      · simp only [schedStep, hq, if_neg hv, Except.ok.injEq, Sum.inl.injEq] at hstep
        subst hstep
        constructor
        · rw [hq'e]; exact h.qN.erase node
        · exact addOnce_nodup h.tN node
        · exact h.sN
        · intro v hv' hmem
          exact h.qs v (hq'mem v hv').2 hmem
        · intro v hv' hmem
          rcases mem_addOnce.mp hv' with hm | hm
          · exact h.ts v hm hmem
          · rw [hm] at hmem; exact hnotsch hmem
        · intro v hv' hvT'
          obtain ⟨hvne, hvq⟩ := hq'mem v hv'
          rcases mem_addOnce.mp hvT' with hm | hm
          · exact h.qt v hvq hm
          · exact hvne hm
        · intro v hv' p hp
          rcases hv' with hv' | hv'
          · exact h.ready v (Or.inl (hq'mem v hv').2) p hp
          · rcases mem_addOnce.mp hv' with hm | hm
            · exact h.ready v (Or.inr hm) p hp
            · rw [hm] at hp
              exact h.ready node (Or.inl hnode) p hp
        · exact h.closed
        · exact h.part
        · intro v hv' p hp
          exact h.qfin v (hq'mem v hv').2 p hp
        · exact h.layered
        · exact h.curLayered
  | none =>
      have hqnil : s.queue = [] :=
        (pqNext_none_iff (fun i j => nodeCompareP (G.prio i) (G.prio j))).mp hq
      cases hg : toGroup (s.currentGroup.map G.instrAtG) with
      | error e =>
          simp only [schedStep, hq, hg] at hstep
          simp at hstep
      | ok g =>
          by_cases he : (s.toUpdate.foldl addOnce s.queue).isEmpty = true
          · simp only [schedStep, hq, hg, if_pos he] at hstep
            simp at hstep
          · simp only [schedStep, hq, hg, if_neg he, Except.ok.injEq,
              Sum.inl.injEq] at hstep
            subst hstep
            have hflat : (s.schedIds ++ [s.currentGroup]).flatten =
                s.schedIds.flatten ++ s.currentGroup := by
              rw [List.flatten_append]
              simp
            constructor
            · exact foldl_addOnce_nodup h.qN
            · exact List.nodup_nil
            · exact h.sN
            · intro v hv' hmem
              rcases foldl_addOnce_mem.mp hv' with hm | hm
              · exact h.qs v hm hmem
              · exact h.ts v hm hmem
            · intro v hv'; simp at hv'
            · intro v _ hvT'; simp at hvT'
            · intro v hv' p hp
              rcases hv' with hv' | hv'
              · rcases foldl_addOnce_mem.mp hv' with hm | hm
                · exact h.ready v (Or.inl hm) p hp
                · exact h.ready v (Or.inr hm) p hp
              · simp at hv'
            · exact h.closed
            · show ((s.schedIds ++ [s.currentGroup]).flatten ++ []).Perm s.scheduled
              rw [List.append_nil, hflat]
              exact h.part
            · intro v hv' p hp
              rw [hflat]
              have hsch : p ∈ s.scheduled := by
                rcases foldl_addOnce_mem.mp hv' with hm | hm
                · exact h.ready v (Or.inl hm) p hp
                · exact h.ready v (Or.inr hm) p hp
              exact (h.part.mem_iff).mpr hsch
            · intro jdx b hb p hp
              rcases Nat.lt_trichotomy jdx s.schedIds.length with hj | hj | hj
              · rw [getD_append_lt _ _ _ hj] at hb
                rw [List.take_append_of_le_length (Nat.le_of_lt hj)]
                exact h.layered jdx b hb p hp
              · rw [hj] at hb ⊢
                rw [getD_append_len] at hb
                rw [List.take_left]
                exact h.curLayered b hb p hp
              · rw [List.getD_eq_default _ _ (by simp; omega)] at hb
                simp at hb
            · intro b hb; simp at hb

theorem schedStep_inv_inr {G : SchedGraph}
    {valid : List Instruction → Instruction → Bool} {s : SState}
    {bs : List (List Nat)}
    (h : SchedInv G s) (hstep : schedStep G valid s = .ok (.inr bs)) :
    bs.flatten.Nodup ∧
    (∀ jdx b, b ∈ bs.getD jdx [] → ∀ p ∈ G.preds b, p ∈ (bs.take jdx).flatten) := by
  cases hq : pqNext (fun i j => nodeCompareP (G.prio i) (G.prio j)) s.queue with
  | some nq =>
      obtain ⟨node, q'⟩ := nq
      by_cases hv : valid (s.currentGroup.map G.instrAtG) (G.instrAtG node) = true
      · simp only [schedStep, hq, if_pos hv] at hstep
        simp at hstep
      · simp only [schedStep, hq, if_neg hv] at hstep
        simp at hstep
  | none =>
      cases hg : toGroup (s.currentGroup.map G.instrAtG) with
      | error e =>
          simp only [schedStep, hq, hg] at hstep
          simp at hstep
      | ok g =>
          by_cases he : (s.toUpdate.foldl addOnce s.queue).isEmpty = true
          · simp only [schedStep, hq, hg, if_pos he, Except.ok.injEq,
              Sum.inr.injEq] at hstep
            subst hstep
            have hflat : (s.schedIds ++ [s.currentGroup]).flatten =
                s.schedIds.flatten ++ s.currentGroup := by
              rw [List.flatten_append]
              simp
            constructor
            · rw [hflat]
              exact h.part.symm.nodup h.sN
            · intro jdx b hb p hp
              rcases Nat.lt_trichotomy jdx s.schedIds.length with hj | hj | hj
              · rw [getD_append_lt _ _ _ hj] at hb
                rw [List.take_append_of_le_length (Nat.le_of_lt hj)]
                exact h.layered jdx b hb p hp
              · rw [hj] at hb ⊢
                rw [getD_append_len] at hb
                rw [List.take_left]
                exact h.curLayered b hb p hp
              · rw [List.getD_eq_default _ _ (by simp; omega)] at hb
                simp at hb
          · simp only [schedStep, hq, hg, if_neg he] at hstep
            simp at hstep

theorem schedRun_final {G : SchedGraph} (HW : GraphWF G)
    {valid : List Instruction → Instruction → Bool} :
    ∀ (fuel : Nat) (s : SState) (bs : List (List Nat)), SchedInv G s →
      schedRun G valid fuel s = some (.ok bs) →
      bs.flatten.Nodup ∧
      (∀ jdx b, b ∈ bs.getD jdx [] → ∀ p ∈ G.preds b, p ∈ (bs.take jdx).flatten) := by
  intro fuel
  induction fuel with
  | zero => intro s bs _ hrun; simp [schedRun] at hrun
  | succ fuel ih =>
      intro s bs hInv hrun
      rw [schedRun] at hrun
      cases hstep : schedStep (G := G) valid s with
      | error e => rw [hstep] at hrun; simp at hrun
      | ok r =>
          cases r with
          | inr bs' =>
              rw [hstep] at hrun
              simp only [Option.some.injEq, Except.ok.injEq] at hrun
              subst hrun
              exact schedStep_inv_inr hInv hstep
          | inl s' =>
              rw [hstep] at hrun
              exact ih s' bs (schedStep_inv_inl HW hInv hstep) hrun

mutual

/-- assignDagPriority of dataflow.ts (lines 154-161) on node i of a graph
given by its successor map: recursively assign priorities to all
successors while accumulating the maximal returned depth, then set the
priority of i to that maximum plus one and return it. The source recursion
is unbounded (it diverges on cyclic graphs), so it is modelled with fuel;
none means the fuel ran out. -/
def adpNode (succs : Nat → List Nat) :
    Nat → Nat → (Nat → Option Nat) → Option (Nat × (Nat → Option Nat))
  | 0, _, _ => none
  | fuel + 1, i, pr =>
      match adpList succs fuel (succs i) 0 pr with
      | none => none
      | some (maxDepth, pr1) =>
          some (maxDepth + 1, fun j => if j = i then some (maxDepth + 1) else pr1 j)
termination_by fuel _ _ => (fuel, 0)

/-- The loop of assignDagPriority over the successor list, threading
maxDepth and the priority map. -/
def adpList (succs : Nat → List Nat) :
    Nat → List Nat → Nat → (Nat → Option Nat) → Option (Nat × (Nat → Option Nat))
  | _, [], maxDepth, pr => some (maxDepth, pr)
  | fuel, c :: cs, maxDepth, pr =>
      match adpNode succs fuel c pr with
      | none => none
      | some (d, pr1) => adpList succs fuel cs (Nat.max maxDepth d) pr1
termination_by fuel cs _ _ => (fuel, cs.length + 1)

end

/-- The height of node i computed with bounded recursion depth: 1 for a
node with no successors, otherwise one more than the maximal height of a
successor. On a graph whose edges strictly increase node indices the value
is independent of the fuel once the fuel reaches the distance to the node
bound (heightAux_stable below). -/
def heightAux (succs : Nat → List Nat) : Nat → Nat → Nat
  | 0, _ => 1
  | fuel + 1, i => ((succs i).map (heightAux succs fuel)).foldl Nat.max 0 + 1

/-- The successor map of the full graph including the start node: the
start node is represented by index n (one past every instruction node) and
its successors are the start registry. -/
def fullSuccs (G : SchedGraph) : Nat → List Nat :=
  fun i => if i = G.n then G.startSuccs else G.succs i

/-- Reflexive-transitive reachability along the successor map. -/
inductive ReachAdp (succs : Nat → List Nat) : Nat → Nat → Prop where
  | refl (i : Nat) : ReachAdp succs i i
  | step {i j k : Nat} : ReachAdp succs i j → k ∈ succs j → ReachAdp succs i k

theorem reachAdp_cases {succs : Nat → List Nat} {i j : Nat}
    (h : ReachAdp succs i j) : j = i ∨ ∃ c ∈ succs i, ReachAdp succs c j := by
  induction h with
  | refl => exact Or.inl rfl
  | step hr hk ih =>
      rcases ih with rfl | ⟨c, hc, hcj⟩
      · exact Or.inr ⟨_, hk, ReachAdp.refl _⟩
      · exact Or.inr ⟨c, hc, ReachAdp.step hcj hk⟩

theorem reachAdp_mono {succs : Nat → List Nat} {n : Nat}
    (Hinc : ∀ i j, i < n → j ∈ succs i → i < j ∧ j < n) {c j : Nat}
    (hc : c < n) (h : ReachAdp succs c j) : c ≤ j ∧ j < n := by
  induction h with
  | refl => exact ⟨Nat.le_refl _, hc⟩
  | step hr hk ih =>
      obtain ⟨h1, h2⟩ := ih
      obtain ⟨h3, h4⟩ := Hinc _ _ h2 hk
      exact ⟨by omega, h4⟩

/-- The height of node i on the subgraph below the node bound n. -/
def heightTo (succs : Nat → List Nat) (n i : Nat) : Nat :=
  heightAux succs (n - i) i

theorem heightAux_stable {succs : Nat → List Nat} {n : Nat}
    (Hinc : ∀ i j, i < n → j ∈ succs i → i < j ∧ j < n) :
    ∀ (m i f1 f2 : Nat), i < n → n - i ≤ m → n - i ≤ f1 → n - i ≤ f2 →
      heightAux succs f1 i = heightAux succs f2 i := by
  intro m
  induction m with
  | zero => intro i f1 f2 hi hm _ _; omega
  | succ m ih =>
      intro i f1 f2 hi hm h1 h2
      cases f1 with
      | zero => omega
      | succ a =>
          cases f2 with
          | zero => omega
          | succ b =>
              show ((succs i).map (heightAux succs a)).foldl Nat.max 0 + 1 =
                ((succs i).map (heightAux succs b)).foldl Nat.max 0 + 1
              have hmap : (succs i).map (heightAux succs a) =
                  (succs i).map (heightAux succs b) := by
                apply List.map_congr_left
                intro j hj
                obtain ⟨hij, hjn⟩ := Hinc i j hi hj
                exact ih j a b hjn (by omega) (by omega) (by omega)
              rw [hmap]

theorem heightTo_eq {succs : Nat → List Nat} {n : Nat}
    (Hinc : ∀ i j, i < n → j ∈ succs i → i < j ∧ j < n) {i : Nat} (hi : i < n) :
    heightTo succs n i = ((succs i).map (heightTo succs n)).foldl Nat.max 0 + 1 := by
  unfold heightTo
  have h1 : n - i = (n - i - 1) + 1 := by omega
  rw [h1]
  show ((succs i).map (heightAux succs (n - i - 1))).foldl Nat.max 0 + 1 = _
  have hmap : (succs i).map (heightAux succs (n - i - 1)) =
      (succs i).map (fun j => heightAux succs (n - j) j) := by
    apply List.map_congr_left
    intro j hj
    obtain ⟨hij, hjn⟩ := Hinc i j hi hj
    exact heightAux_stable Hinc n j (n - i - 1) (n - j) hjn (by omega) (by omega)
      (by omega)
  rw [hmap]

theorem adpList_spec {succs : Nat → List Nat} {n : Nat} {f : Nat}
    (hnode : ∀ (c : Nat) (pr : Nat → Option Nat), c < n → n - c < f →
      ∃ pr', adpNode succs f c pr = some (heightTo succs n c, pr') ∧
        (∀ j, pr' j = pr j ∨ pr' j = some (heightTo succs n j)) ∧
        (∀ j, ReachAdp succs c j → pr' j = some (heightTo succs n j))) :
    ∀ (cs : List Nat), (∀ c ∈ cs, c < n ∧ n - c < f) →
      ∀ (m : Nat) (pr : Nat → Option Nat),
      ∃ pr', adpList succs f cs m pr =
          some ((cs.map (heightTo succs n)).foldl Nat.max m, pr') ∧
        (∀ j, pr' j = pr j ∨ pr' j = some (heightTo succs n j)) ∧
        (∀ c ∈ cs, ∀ j, ReachAdp succs c j → pr' j = some (heightTo succs n j)) := by
  intro cs
  induction cs with
  | nil =>
      intro _ m pr
      refine ⟨pr, ?_, fun j => Or.inl rfl, ?_⟩
      · simp [adpList]
      · intro c hc; simp at hc
  | cons c cs ih =>
      intro hcs m pr
      obtain ⟨hcn, hcf⟩ := hcs c (List.mem_cons_self c cs)
      obtain ⟨pr1, hrun1, hpres1, hcov1⟩ := hnode c pr hcn hcf
      obtain ⟨pr', hrun', hpres', hcov'⟩ :=
        ih (fun d hd => hcs d (List.mem_cons_of_mem c hd))
          (Nat.max m (heightTo succs n c)) pr1
      refine ⟨pr', ?_, ?_, ?_⟩
      · rw [adpList, hrun1]
        show adpList succs f cs (Nat.max m (heightTo succs n c)) pr1 =
          some (List.foldl Nat.max m (List.map (heightTo succs n) (c :: cs)), pr')
        rw [hrun']
        rfl
      · intro j
        rcases hpres' j with h | h
        · rcases hpres1 j with h1 | h1
          · exact Or.inl (h.trans h1)
          · exact Or.inr (h.trans h1)
        · exact Or.inr h
      · intro d hd j hreach
        rcases List.mem_cons.mp hd with rfl | hd'
        · have h1 := hcov1 j hreach
          rcases hpres' j with h | h
          · exact h.trans h1
          · exact h
        · exact hcov' d hd' j hreach

theorem adpNode_spec {succs : Nat → List Nat} {n : Nat}
    (Hinc : ∀ i j, i < n → j ∈ succs i → i < j ∧ j < n) :
    ∀ (fuel i : Nat) (pr : Nat → Option Nat), i < n → n - i < fuel →
      ∃ pr', adpNode succs fuel i pr = some (heightTo succs n i, pr') ∧
        (∀ j, pr' j = pr j ∨ pr' j = some (heightTo succs n j)) ∧
        (∀ j, ReachAdp succs i j → pr' j = some (heightTo succs n j)) := by
  intro fuel
  induction fuel using Nat.strong_induction_on with
  | _ fuel ih =>
      intro i pr hi hfi
      cases fuel with
      | zero => omega
      | succ f =>
          have hnode : ∀ (c : Nat) (pr2 : Nat → Option Nat), c < n → n - c < f →
              ∃ pr', adpNode succs f c pr2 = some (heightTo succs n c, pr') ∧
                (∀ j, pr' j = pr2 j ∨ pr' j = some (heightTo succs n j)) ∧
                (∀ j, ReachAdp succs c j → pr' j = some (heightTo succs n j)) :=
            fun c pr2 hc hfc => ih f (Nat.lt_succ_self f) c pr2 hc hfc
          have hchildren : ∀ c ∈ succs i, c < n ∧ n - c < f := by
            intro c hc
            obtain ⟨h1, h2⟩ := Hinc i c hi hc
            omega
          obtain ⟨pr', hrun, hpres, hcov⟩ := adpList_spec hnode (succs i) hchildren 0 pr
          have hval : ((succs i).map (heightTo succs n)).foldl Nat.max 0 + 1 =
              heightTo succs n i := (heightTo_eq Hinc hi).symm
          refine ⟨fun j => if j = i then some (heightTo succs n i) else pr' j, ?_, ?_, ?_⟩
          · show adpNode succs (f + 1) i pr = _
            rw [adpNode, hrun]
            simp only [hval]
          · intro j
            by_cases hj : j = i
            · subst hj; simp
            · simp only [if_neg hj]
              exact hpres j
          · intro j hreach
            rcases reachAdp_cases hreach with rfl | ⟨c, hc, hcj⟩
            · simp
            · have hij : i < j := by
                obtain ⟨h1, _⟩ := Hinc i c hi hc
                obtain ⟨h2, _⟩ := reachAdp_mono Hinc (hchildren c hc).1 hcj
                omega
              have hne : j ≠ i := by omega
              simp only [if_neg hne]
              exact hcov c hc j hcj

theorem foldl_best_none :
    ∀ (xs : List PNode) (x : PNode),
      (x.priority = none ∨ ∃ y ∈ xs, y.priority = none) →
      (xs.foldl (fun best item => if nodeCompare best item then item else best)
        x).priority = none := by
  intro xs
  induction xs with
  | nil =>
      intro x h
      rcases h with h | ⟨y, hy, _⟩
      · exact h
      · simp at hy
  | cons z ys ih =>
      intro x h
      simp only [List.foldl_cons]
      apply ih
      rcases h with hx | ⟨y, hy, hyn⟩
      · left
        have hcmp : nodeCompare x z = false := by
          unfold nodeCompare nodeCompareP
          rw [hx]
        have hacc : (if nodeCompare x z then z else x) = x := by simp [hcmp]
        rw [hacc]
        exact hx
      · rcases List.mem_cons.mp hy with rfl | hy'
        · left
          cases hx : x.priority with
          | none =>
              have hcmp : nodeCompare x y = false := by
                unfold nodeCompare nodeCompareP
                rw [hx]
              have hacc : (if nodeCompare x y then y else x) = x := by simp [hcmp]
              rw [hacc]
              exact hx
          | some p =>
              have hcmp : nodeCompare x y = true := by
                unfold nodeCompare nodeCompareP
                rw [hx, hyn]
              have hacc : (if nodeCompare x y then y else x) = y := by simp [hcmp]
              rw [hacc]
              exact hyn
        · exact Or.inr ⟨y, hy', hyn⟩

theorem foldl_best_max :
    ∀ (xs : List PNode) (x : PNode),
      (∀ y ∈ x :: xs, ∃ k, y.priority = some (k + 1)) →
      ∃ b, xs.foldl (fun best item => if nodeCompare best item then item else best) x
          = b ∧ b ∈ x :: xs ∧
        ∀ y ∈ x :: xs, y.priority.getD 0 ≤ b.priority.getD 0 := by
  intro xs
  induction xs with
  | nil =>
      intro x _
      exact ⟨x, rfl, List.mem_cons_self _ _, by
        intro y hy
        rcases List.mem_cons.mp hy with rfl | hy'
        · exact Nat.le_refl _
        · simp at hy'⟩
  | cons z ys ih =>
      intro x hpos
      obtain ⟨px, hpx⟩ := hpos x (List.mem_cons_self _ _)
      obtain ⟨pz, hpz⟩ := hpos z (List.mem_cons_of_mem _ (List.mem_cons_self _ _))
      simp only [List.foldl_cons]
      have hposacc : ∀ y ∈ (if nodeCompare x z then z else x) :: ys,
          ∃ k, y.priority = some (k + 1) := by
        intro y hy
        rcases List.mem_cons.mp hy with rfl | hy'
        · by_cases hc : nodeCompare x z = true
          · rw [if_pos hc]; exact ⟨pz, hpz⟩
          · rw [if_neg hc]; exact ⟨px, hpx⟩
        · exact hpos y (List.mem_cons_of_mem _ (List.mem_cons_of_mem _ hy'))
      obtain ⟨b, hb, hbmem, hbmax⟩ := ih (if nodeCompare x z then z else x) hposacc
      have hcmp : nodeCompare x z = decide (px + 1 < pz + 1) := by
        unfold nodeCompare nodeCompareP
        rw [hpx, hpz]
        simp
      refine ⟨b, hb, ?_, ?_⟩
      · rcases List.mem_cons.mp hbmem with hb' | hb'
        · by_cases hc : nodeCompare x z = true
          · rw [if_pos hc] at hb'
            rw [hb']
            exact List.mem_cons_of_mem _ (List.mem_cons_self _ _)
          · rw [if_neg hc] at hb'
            rw [hb']
            exact List.mem_cons_self _ _
        · exact List.mem_cons_of_mem _ (List.mem_cons_of_mem _ hb')
      · have haccx : x.priority.getD 0 ≤
            (if nodeCompare x z then z else x).priority.getD 0 := by
          by_cases hc : nodeCompare x z = true
          · rw [if_pos hc]
            rw [hcmp] at hc
            have : px + 1 < pz + 1 := of_decide_eq_true hc
            rw [hpx, hpz]
            simp
            omega
          · rw [if_neg hc]
        have haccz : z.priority.getD 0 ≤
            (if nodeCompare x z then z else x).priority.getD 0 := by
          by_cases hc : nodeCompare x z = true
          · rw [if_pos hc]
          · rw [if_neg hc]
            have hf : nodeCompare x z = false := by
              cases h : nodeCompare x z
              · rfl
              · exact absurd h hc
            rw [hcmp] at hf
            have hnlt : ¬ (px + 1 < pz + 1) := of_decide_eq_false hf
            rw [hpx, hpz]
            simp
            omega
        have hacc := hbmax (if nodeCompare x z then z else x) (List.mem_cons_self _ _)
        intro y hy
        rcases List.mem_cons.mp hy with rfl | hy'
        · exact Nat.le_trans haccx hacc
        · rcases List.mem_cons.mp hy' with rfl | hy''
          · exact Nat.le_trans haccz hacc
          · exact hbmax y (List.mem_cons_of_mem _ hy'')

theorem schedStep_inr_ne_nil {G : SchedGraph}
    {valid : List Instruction → Instruction → Bool} {s : SState}
    {bs : List (List Nat)}
    (hstep : schedStep G valid s = .ok (.inr bs)) : bs ≠ [] := by
  cases hq : pqNext (fun i j => nodeCompareP (G.prio i) (G.prio j)) s.queue with
  | some nq =>
      obtain ⟨node, q'⟩ := nq
      by_cases hv : valid (s.currentGroup.map G.instrAtG) (G.instrAtG node) = true
      · simp only [schedStep, hq, if_pos hv] at hstep
        simp at hstep
      · simp only [schedStep, hq, if_neg hv] at hstep
        simp at hstep
  | none =>
      cases hg : toGroup (s.currentGroup.map G.instrAtG) with
      | error e =>
          simp only [schedStep, hq, hg] at hstep
          simp at hstep
      | ok g =>
          by_cases he : (s.toUpdate.foldl addOnce s.queue).isEmpty = true
          · simp only [schedStep, hq, hg, if_pos he, Except.ok.injEq,
              Sum.inr.injEq] at hstep
            rw [← hstep]
            simp
          · simp only [schedStep, hq, hg, if_neg he] at hstep
            simp at hstep

theorem schedRun_ok_ne_nil {G : SchedGraph}
    {valid : List Instruction → Instruction → Bool} :
    ∀ (fuel : Nat) (s : SState) (bs : List (List Nat)),
      schedRun G valid fuel s = some (.ok bs) → bs ≠ [] := by
  intro fuel
  induction fuel with
  | zero => intro s bs h; simp [schedRun] at h
  | succ fuel ih =>
      intro s bs h
      rw [schedRun] at h
      cases hstep : schedStep (G := G) valid s with
      | error e => rw [hstep] at h; simp at h
      | ok r =>
          cases r with
          | inr bs' =>
              rw [hstep] at h
              simp only [Option.some.injEq, Except.ok.injEq] at h
              rw [← h]
              exact schedStep_inr_ne_nil hstep
          | inl s' =>
              rw [hstep] at h
              exact ih s' bs h

theorem materializeAll_cons_ne_nil {G : SchedGraph} {b : List Nat}
    {bs : List (List Nat)} {gs : List GroupData}
    (h : materializeAll G (b :: bs) = .ok gs) : gs ≠ [] := by
  rw [materializeAll] at h
  cases h1 : toGroup (b.map G.instrAtG) with
  | error e => rw [h1] at h; simp at h
  | ok g =>
      rw [h1] at h
      cases h2 : materializeAll G bs with
      | error e => rw [h2] at h; simp at h
      | ok gs' =>
          rw [h2] at h
          simp only [Except.ok.injEq] at h
          rw [← h]
          simp

/-- C1, evaluation at the failing input: for the one-instruction trace
id x = x (an instruction that reads its own destination) and the validity
predicate that accepts everything, listSchedule terminates and returns a
single empty Group: the destination-bearing instruction of the trace is
silently dropped, contradicting the claim that the union of the Groups'
micro-instruction lists equals the set of destination-bearing instructions
of the trace. The cause: dataflow updates the written map before scanning
the arguments, so the node receives a self-edge and is never ready. -/
theorem c1_failing_eval :
    listSchedule (dataflow [Instruction.value VOp.id ["x"] "x" Ty.int])
        (fun _ _ => true) 1 = some (Except.ok [⟨[], [], ""⟩]) ∧
    [Instruction.value VOp.id ["x"] "x" Ty.int].filterMap Instruction.toVInstr? =
      [VInstr.value VOp.id ["x"] "x" Ty.int] := by
  exact ⟨rfl, rfl⟩

/-- C2, evaluation at the failing input: for the one-instruction trace
id x = x, dataflow makes node 0 its own predecessor and its own successor
(a cycle), contradicting the claim that no node is ever reachable from
itself and in particular never its own predecessor. -/
theorem c2_failing_eval :
    0 ∈ (dataflow [Instruction.value VOp.id ["x"] "x" Ty.int]).preds 0 ∧
    0 ∈ (dataflow [Instruction.value VOp.id ["x"] "x" Ty.int]).succs 0 := by
  decide

/-- C3: for every dependence edge from node a to node b of the graph built
by dataflow (true or anti dependence alike), whenever the scheduling loop
of listSchedule returns (schedRun is the while loop of listSchedule over
the id-level bundles, which listSchedule then materializes into the
returned Groups one for one), and a lies in bundle i while b lies in
bundle j, then i is at most j and a and b never share a bundle. -/
theorem c3_dependence_ordering (t : List Instruction)
    (valid : List Instruction → Instruction → Bool) (fuel : Nat)
    (bundles : List (List Nat)) (a b i j : Nat)
    (hrun : schedRun (dataflow t) valid fuel (initState (dataflow t)) =
      some (Except.ok bundles))
    (hedge : b ∈ (dataflow t).succs a)
    (ha : a ∈ bundles.getD i [])
    (hb : b ∈ bundles.getD j []) :
    (i ≤ j ∧ i ≠ j) ∧
    listSchedule (dataflow t) valid fuel = some (materializeAll (dataflow t) bundles) := by
  have HW := dataflow_wf t
  obtain ⟨hN, hlay⟩ := schedRun_final HW fuel _ bundles (schedInv_init _ HW) hrun
  have hpred : a ∈ (dataflow t).preds b := (HW.symm b a).mpr hedge
  have htake := hlay j b hb a hpred
  obtain ⟨i', hi', hmem'⟩ := mem_take_join_index bundles j a htake
  have hii : i = i' := join_nodup_unique_index bundles hN ha hmem'
  constructor
  · omega
  · unfold listSchedule
    rw [hrun]

/-- Witness for C3 at a concrete run: the trace const x; id y = x has a
true-dependence edge from node 0 to node 1, the run with a
one-instruction-per-bundle validity predicate yields the bundles [0] and
[1], and the theorem places node 0 strictly before node 1. -/
theorem c3_witness :
    ((0 : Nat) ≤ 1 ∧ (0 : Nat) ≠ 1) ∧
    listSchedule (dataflow [Instruction.const "x" Ty.int (Value.int 1),
        Instruction.value VOp.id ["x"] "y" Ty.int]) (fun g _ => g.isEmpty) 5 =
      some (materializeAll (dataflow [Instruction.const "x" Ty.int (Value.int 1),
        Instruction.value VOp.id ["x"] "y" Ty.int]) [[0], [1]]) :=
  c3_dependence_ordering
    [Instruction.const "x" Ty.int (Value.int 1),
     Instruction.value VOp.id ["x"] "y" Ty.int]
    (fun g _ => g.isEmpty) 5 [[0], [1]] 0 1 0 1 rfl (by decide) (by decide) (by decide)

/-- C4, evaluation at the failing input: in the trace const x = 1; id x = x,
node 0 is the nearest writer of x strictly preceding node 1, and node 1
reads x, yet the only predecessor of node 1 is node 1 itself: the written
map is updated by the destination block before the argument block runs, so
the true-dependence edge goes from the node to itself instead of from the
preceding writer, contradicting the claim (precisely in its highlighted
case where B also writes X). -/
theorem c4_failing_eval :
    (dataflow [Instruction.const "x" Ty.int (Value.int 1),
        Instruction.value VOp.id ["x"] "x" Ty.int]).preds 1 = [1] ∧
    lastWriterBefore [Instruction.const "x" Ty.int (Value.int 1),
        Instruction.value VOp.id ["x"] "x" Ty.int] 1 "x" = some 0 ∧
    "x" ∈ (instrAt [Instruction.const "x" Ty.int (Value.int 1),
        Instruction.value VOp.id ["x"] "x" Ty.int] 1).argsOf := by
  decide

/-- C5, counterexample: in the trace const x = 1; print x; const x = 2;
const x = 3, node 1 reads x before the intervening write at node 2, yet
node 1 is a predecessor of the still-later writer node 3 (and indeed its
only one): the pending-reader set is never cleared, so the claim's clause
that a reader preceding an intervening write never becomes a predecessor
of a later writer is false. -/
theorem c5_counterexample :
    (dataflow [Instruction.const "x" Ty.int (Value.int 1),
        Instruction.effect ⟨EOp.print, ["x"]⟩,
        Instruction.const "x" Ty.int (Value.int 2),
        Instruction.const "x" Ty.int (Value.int 3)]).preds 3 = [1] ∧
    (instrAt [Instruction.const "x" Ty.int (Value.int 1),
        Instruction.effect ⟨EOp.print, ["x"]⟩,
        Instruction.const "x" Ty.int (Value.int 2),
        Instruction.const "x" Ty.int (Value.int 3)] 2).dest? = some "x" := by
  decide

/-- C5 as amended: when dataflow processes an instruction at position i
whose destination is d, it adds anti-dependence edges into i from every
instruction that read d anywhere earlier in the trace (the pending-reader
set is never cleared by an intervening write; a new write only replaces
the most-recent-writer entry), and the only other predecessors of i are
the true-dependence sources observed for its arguments. -/
theorem c5_amended (t : List Instruction) (i : Nat) (d : Ident)
    (hi : i < t.length) (hd : (instrAt t i).dest? = some d) :
    (∀ j, j < i → d ∈ (instrAt t j).argsOf → j ∈ (dataflow t).preds i) ∧
    (∀ j, j ∈ (dataflow t).preds i →
      (j < i ∧ d ∈ (instrAt t j).argsOf) ∨
      (∃ a ∈ (instrAt t i).argsOf, effWriter t i a = some j)) := by
  constructor
  · intro j hj hread
    rw [dataflow_preds_iff]
    exact ⟨hi, Or.inl ⟨d, hd, hj, hread⟩⟩
  · intro j hj
    rw [dataflow_preds_iff] at hj
    rcases hj.2 with ⟨d', hd', h1, h2⟩ | h
    · rw [hd] at hd'
      obtain rfl : d = d' := Option.some.inj hd'
      exact Or.inl ⟨h1, h2⟩
    · exact Or.inr h

/-- Witness for C5 as amended: in the four-instruction trace of the
counterexample, the reader node 1 is a predecessor of the later writer
node 3 even though the write at node 2 intervenes. -/
theorem c5_witness :
    1 ∈ (dataflow [Instruction.const "x" Ty.int (Value.int 1),
        Instruction.effect ⟨EOp.print, ["x"]⟩,
        Instruction.const "x" Ty.int (Value.int 2),
        Instruction.const "x" Ty.int (Value.int 3)]).preds 3 :=
  (c5_amended [Instruction.const "x" Ty.int (Value.int 1),
        Instruction.effect ⟨EOp.print, ["x"]⟩,
        Instruction.const "x" Ty.int (Value.int 2),
        Instruction.const "x" Ty.int (Value.int 3)] 3 "x"
    (by decide) (by decide)).1 1 (by decide) (by decide)

/-- C6, counterexample: in a queue holding a node with assigned priority 1
and a node with undefined priority, PQueue.next with nodeCompare removes
the node with undefined priority, contradicting the claim that a node
with undefined priority always loses to any node with an assigned one
(next replaces its best with the current item when compare says best is
better, inverting the comparator's stated contract). -/
theorem c6_counterexample :
    pqNext nodeCompare [⟨0, some 1⟩, ⟨1, none⟩] =
      some (⟨1, none⟩, [⟨0, some 1⟩]) := by
  decide

/-- C6 as amended: whenever the worklist is non-empty, if any node in it
has undefined priority then the node removed by PQueue.next has undefined
priority (undefined always wins, not loses); and when every node in the
worklist carries an assigned positive priority (as assignDagPriority
produces: heights are at least 1, and JavaScript truthiness makes 0 behave
like undefined), the removed node is a member of greatest priority. -/
theorem c6_amended (q : List PNode) (hne : q ≠ []) :
    ((∃ x ∈ q, x.priority = none) →
      ∃ b q', pqNext nodeCompare q = some (b, q') ∧ b.priority = none) ∧
    ((∀ x ∈ q, ∃ k, x.priority = some (k + 1)) →
      ∃ b q', pqNext nodeCompare q = some (b, q') ∧ b ∈ q ∧
        ∀ y ∈ q, y.priority.getD 0 ≤ b.priority.getD 0) := by
  cases q with
  | nil => exact absurd rfl hne
  | cons x xs =>
      constructor
      · rintro ⟨y, hy, hyn⟩
        refine ⟨xs.foldl (fun best item => if nodeCompare best item then item else best) x,
          (x :: xs).erase
            (xs.foldl (fun best item => if nodeCompare best item then item else best) x),
          rfl, ?_⟩
        apply foldl_best_none
        rcases List.mem_cons.mp hy with rfl | hy'
        · exact Or.inl hyn
        · exact Or.inr ⟨y, hy', hyn⟩
      · intro hpos
        obtain ⟨b, hbeq, hbmem, hbmax⟩ := foldl_best_max xs x hpos
        have hbest : pqBest nodeCompare (x :: xs) = some b := by
          rw [← hbeq]
          rfl
        refine ⟨b, (x :: xs).erase b, ?_, hbmem, hbmax⟩
        unfold pqNext
        rw [hbest]

/-- Witness for C6 as amended: on the concrete queue of the counterexample
the removed node has undefined priority, and on an all-assigned queue the
node of greatest priority is removed. -/
theorem c6_witness :
    (∃ b q', pqNext nodeCompare [(⟨0, some 1⟩ : PNode), ⟨1, none⟩] = some (b, q') ∧
      b.priority = none) ∧
    (∃ b q', pqNext nodeCompare [(⟨0, some 1⟩ : PNode), ⟨1, some 2⟩] = some (b, q') ∧
      b ∈ [(⟨0, some 1⟩ : PNode), ⟨1, some 2⟩] ∧
      ∀ y ∈ [(⟨0, some 1⟩ : PNode), ⟨1, some 2⟩],
        y.priority.getD 0 ≤ b.priority.getD 0) :=
  ⟨(c6_amended [⟨0, some 1⟩, ⟨1, none⟩] (by decide)).1
      ⟨⟨1, none⟩, by decide, rfl⟩,
   (c6_amended [⟨0, some 1⟩, ⟨1, some 2⟩] (by decide)).2
      (by
        intro x hx
        rcases List.mem_cons.mp hx with rfl | hx'
        · exact ⟨0, rfl⟩
        · rcases List.mem_cons.mp hx' with rfl | hx''
          · exact ⟨1, rfl⟩
          · simp at hx'')⟩

/-- C7: materializing a bundle that contains no Group succeeds and returns
a Group whose micro-instruction list is exactly the destination-bearing
instructions (constants and value operations) of the bundle in encounter
order, whose precondition list is exactly the tested first argument of
each guard whose nested effect is a conditional branch, in order, and
whose fail label is the fail target of the last guard (trace instruction)
in the bundle, the empty string when there is none; no effect instruction
is retained anywhere else in the Group. -/
theorem c7_materialize (bundle : List Instruction)
    (hng : ∀ x ∈ bundle, x.isGroupI = false) :
    ∃ g, toGroup bundle = .ok g ∧
      g.instrs = bundle.filterMap Instruction.toVInstr? ∧
      g.conds = bundle.filterMap Instruction.condOf ∧
      g.failLabel = (bundle.filterMap Instruction.failOf).getLastD "" := by
  refine ⟨_, toGroup_ok bundle hng, rfl, rfl, rfl⟩

/-- Witness for C7 on a concrete bundle holding a conditional-branch
guard, a constant and a plain effect instruction. -/
theorem c7_witness :
    ∃ g, toGroup [Instruction.trace ⟨EOp.br, ["c"]⟩ "L1",
        Instruction.const "x" Ty.int (Value.int 1),
        Instruction.effect ⟨EOp.print, ["x"]⟩] = .ok g ∧
      g.instrs = [Instruction.trace ⟨EOp.br, ["c"]⟩ "L1",
        Instruction.const "x" Ty.int (Value.int 1),
        Instruction.effect ⟨EOp.print, ["x"]⟩].filterMap Instruction.toVInstr? ∧
      g.conds = [Instruction.trace ⟨EOp.br, ["c"]⟩ "L1",
        Instruction.const "x" Ty.int (Value.int 1),
        Instruction.effect ⟨EOp.print, ["x"]⟩].filterMap Instruction.condOf ∧
      g.failLabel = ([Instruction.trace ⟨EOp.br, ["c"]⟩ "L1",
        Instruction.const "x" Ty.int (Value.int 1),
        Instruction.effect ⟨EOp.print, ["x"]⟩].filterMap
          Instruction.failOf).getLastD "" :=
  c7_materialize _ (by decide)

/-- C8: toGroup raises (with the nesting error) exactly when its input
bundle contains an instruction that is itself a Group, and returns a Group
normally exactly when the bundle is free of nested Groups. -/
theorem c8_nesting_error (l : List Instruction) :
    (toGroup l = .error "Cannot nest groups" ↔ ∃ x ∈ l, x.isGroupI = true) ∧
    ((∃ g, toGroup l = .ok g) ↔ ∀ x ∈ l, x.isGroupI = false) := by
  have h1 := toGroupAux_error_iff l [] [] ""
  constructor
  · exact h1
  · constructor
    · rintro ⟨g, hg⟩ x hx
      cases hb : x.isGroupI with
      | false => rfl
      | true =>
          have herr := h1.mpr ⟨x, hx, hb⟩
          rw [show toGroup l = toGroupAux l [] [] "" from rfl, herr] at hg
          exact absurd hg (by simp)
    · intro h
      exact ⟨_, toGroup_ok l h⟩

/-- C9: on a graph whose dependence edges strictly increase node indices
(the acyclic graphs dataflow is meant to build; index n plays the role of
the start node and its successor registry lists every node), running
assignDagPriority on the start node terminates, and afterwards every
node's priority is assigned and equals one plus the maximum priority of
its successors, hence 1 at a node without successors: the length in nodes
of the longest dependence chain from the node down to a leaf. -/
theorem c9_priorities (G : SchedGraph)
    (Hinc : ∀ i j, j ∈ G.succs i → i < j ∧ j < G.n)
    (Hstart : G.startSuccs = List.range G.n) :
    ∃ v pr, adpNode (fullSuccs G) (G.n + 2) G.n (fun _ => none) = some (v, pr) ∧
      ∀ i, i < G.n →
        pr i = some (((G.succs i).map (fun j => (pr j).getD 0)).foldl Nat.max 0 + 1) := by
  have Hinc' : ∀ i j, i < G.n → j ∈ fullSuccs G i → i < j ∧ j < G.n := by
    intro i j hi hj
    unfold fullSuccs at hj
    rw [if_neg (by omega)] at hj
    exact Hinc i j hj
  have hnode : ∀ (c : Nat) (pr2 : Nat → Option Nat), c < G.n → G.n - c < G.n + 1 →
      ∃ pr', adpNode (fullSuccs G) (G.n + 1) c pr2 =
          some (heightTo (fullSuccs G) G.n c, pr') ∧
        (∀ j, pr' j = pr2 j ∨ pr' j = some (heightTo (fullSuccs G) G.n j)) ∧
        (∀ j, ReachAdp (fullSuccs G) c j →
          pr' j = some (heightTo (fullSuccs G) G.n j)) :=
    fun c pr2 hc hfc => adpNode_spec Hinc' (G.n + 1) c pr2 hc hfc
  have hchildren : ∀ c ∈ fullSuccs G G.n, c < G.n ∧ G.n - c < G.n + 1 := by
    intro c hc
    unfold fullSuccs at hc
    rw [if_pos rfl, Hstart] at hc
    exact ⟨List.mem_range.mp hc, by omega⟩
  obtain ⟨pr', hrun, hpres, hcov⟩ :=
    adpList_spec hnode (fullSuccs G G.n) hchildren 0 (fun _ => none)
  set v0 : Nat :=
    ((fullSuccs G G.n).map (heightTo (fullSuccs G) G.n)).foldl Nat.max 0 with hv0
  refine ⟨v0 + 1, fun j => if j = G.n then some (v0 + 1) else pr' j, ?_, ?_⟩
  · show adpNode (fullSuccs G) (G.n + 1 + 1) G.n (fun _ => none) = _
    rw [adpNode, hrun]
  · intro i hi
    have hcovi : ∀ j, j < G.n → pr' j = some (heightTo (fullSuccs G) G.n j) := by
      intro j hj
      apply hcov j
      · unfold fullSuccs
        rw [if_pos rfl, Hstart]
        exact List.mem_range.mpr hj
      · exact ReachAdp.refl j
    have hne : i ≠ G.n := by omega
    simp only [if_neg hne]
    rw [hcovi i hi]
    have hrec := heightTo_eq Hinc' hi
    have hsame : fullSuccs G i = G.succs i := by
      unfold fullSuccs
      rw [if_neg hne]
    rw [hsame] at hrec
    have hmap : (G.succs i).map (heightTo (fullSuccs G) G.n) =
        (G.succs i).map (fun j =>
          ((fun j => if j = G.n then some (v0 + 1) else pr' j) j).getD 0) := by
      apply List.map_congr_left
      intro j hj
      obtain ⟨_, hjn⟩ := Hinc i j hj
      have hjne : j ≠ G.n := by omega
      simp only [if_neg hjne]
      rw [hcovi j hjn]
      rfl
    rw [hrec, hmap]

/-- Witness for C9 on the two-node chain graph with an edge from node 0 to
node 1: after assignDagPriority runs from the start, node 1 gets priority
1 and node 0 gets priority 2. -/
theorem c9_witness :
    ∃ v pr, adpNode (fullSuccs ⟨2, [0, 1], fun _ => [],
        (fun i => if i = 0 then [1] else []), fun _ => none, fun _ => default⟩)
        (2 + 2) 2 (fun _ => none) = some (v, pr) ∧
      ∀ i, i < 2 →
        pr i = some ((((fun i => if i = 0 then [1] else []) i).map
          (fun j => (pr j).getD 0)).foldl Nat.max 0 + 1) := by
  apply c9_priorities ⟨2, [0, 1], fun _ => [],
    (fun i => if i = 0 then [1] else []), fun _ => none, fun _ => default⟩
  · intro i j hj
    have h : j ∈ (if i = 0 then [1] else ([] : List Nat)) := hj
    show i < j ∧ j < 2
    by_cases hi : i = 0
    · rw [if_pos hi] at h
      rw [List.mem_singleton.mp h, hi]
      omega
    · rw [if_neg hi] at h
      simp at h
  · rfl

/-- C10: the two halves of the claim. For the empty trace, whose start
node has no successors, listSchedule returns a schedule holding exactly
one Group, and that Group has no preconditions, no micro-instructions and
the empty string as fail label; and for every graph, validity predicate
and fuel, a schedule that listSchedule returns is never the empty
sequence, since each finalization appends a Group before the loop may
stop. -/
theorem c10_empty_trace :
    (∀ valid : List Instruction → Instruction → Bool,
      listSchedule (dataflow []) valid 1 = some (Except.ok [⟨[], [], ""⟩])) ∧
    (∀ (G : SchedGraph) (valid : List Instruction → Instruction → Bool)
        (fuel : Nat) (gs : List GroupData),
      listSchedule G valid fuel = some (Except.ok gs) → gs ≠ []) := by
  constructor
  · intro valid
    rfl
  · intro G valid fuel gs h
    unfold listSchedule at h
    cases hr : schedRun G valid fuel (initState G) with
    | none => rw [hr] at h; simp at h
    | some r =>
        cases r with
        | error e => rw [hr] at h; simp at h
        | ok bs =>
            rw [hr] at h
            simp only [Option.some.injEq] at h
            have hbs := schedRun_ok_ne_nil fuel (initState G) bs hr
            cases bs with
            | nil => exact absurd rfl hbs
            | cons b bs' => exact materializeAll_cons_ne_nil h

/-- Witness for C10: the empty trace yields the one-empty-Group schedule,
which is indeed a non-empty schedule. -/
theorem c10_witness :
    ∃ gs : List GroupData, listSchedule (dataflow []) (fun _ _ => true) 1 =
      some (Except.ok gs) ∧ gs ≠ [] :=
  ⟨[⟨[], [], ""⟩], c10_empty_trace.1 (fun _ _ => true),
    c10_empty_trace.2 (dataflow []) (fun _ _ => true) 1 [⟨[], [], ""⟩]
      (c10_empty_trace.1 (fun _ _ => true))⟩

end BrilSched
